import Mathlib

/-!
# Verification of the `eventstore` event store

A shallow embedding of `eventstore.go` (package `eventstore`): the key
codec, the value comparator, the ingest pipeline (`StoreEvents`,
`Version`) and the single-pass query evaluator (`Query`), together with
proofs settling the frozen claims about the specification.

Modelling conventions, used throughout:

* Go byte strings (keys, tags, hashes) are `List Nat` with entries < 256.
* Go `int` / `int64` arithmetic wraps modulo 2^64 (`wrap64`).
* Go `float64` is modelled as `Option ℚ` with `none` playing the role of
  IEEE NaN; finite values are exact rationals.  All float values that
  enter the store originate from JSON, which cannot encode NaN or
  infinities, so `none` only arises as the aggregate sentinel.
* `time.Time` is modelled as a pair (seconds : ℤ, nanoseconds : ℕ) with
  nanoseconds < 10^9, as produced by `time.Parse`.
-/

namespace Eventstore

/-- A Go byte string: list of byte values. -/
abbrev Bytes := List Nat

/-- `eventKeyPrefix byte = 'e'`. -/
def eventKeyPrefix : Nat := 101

/-- `versionKeyPrefix byte = 'v'`. -/
def versionKeyPrefix : Nat := 118

/-- The byte `'-'`, the separator used inside event keys. -/
def dashByte : Nat := 45

/-- Go 64-bit signed wraparound: the representative of `z` in
`[-2^63, 2^63)`.  Models overflow of Go `int`/`int64` arithmetic. -/
def wrap64 (z : Int) : Int :=
  ((z + 2 ^ 63) % 2 ^ 64) - 2 ^ 63

/-- `formatTs`: the 8 big-endian bytes of the two's-complement
representation of the signed 64-bit value `ts`
(`byte(ts >> 56), …, byte(ts)` in the source). -/
def formatTs (ts : Int) : Bytes :=
  let u := (ts % 2 ^ 64).toNat
  [u / 256 ^ 7 % 256, u / 256 ^ 6 % 256, u / 256 ^ 5 % 256,
   u / 256 ^ 4 % 256, u / 256 ^ 3 % 256, u / 256 ^ 2 % 256,
   u / 256 % 256, u % 256]

/-- The unsigned big-endian value of a byte string. -/
def beVal (b : Bytes) : Nat :=
  b.foldl (fun acc x => acc * 256 + x) 0

/-- `parseTs`: big-endian recomposition of 8 bytes into an unsigned
64-bit value, reinterpreted as a signed 64-bit integer (the source ORs
the bytes into an `int64`, so the high bit is the sign bit). -/
def parseTs (b : Bytes) : Int :=
  let u : Nat := beVal b
  if u < 2 ^ 63 then (u : Int) else (u : Int) - 2 ^ 64

/-- Models `strings.Split` for a single-byte separator: splits around
every occurrence of `sep`; `goSplitOn sep [] = [[]]` just as
`strings.Split("", sep)` returns one empty field. -/
def goSplitOn (sep : Nat) : Bytes → List Bytes
  | [] => [[]]
  | b :: rest =>
    match goSplitOn sep rest with
    | [] => [[]]
    | part :: parts =>
      if b = sep then [] :: part :: parts else (b :: part) :: parts

/-- The `len(parts) != 2` test at the end of `splitCollectionID`:
exactly two `-`-separated fields yield a result. -/
def splitParts (ts : Int) : List Bytes → Except String (Int × Bytes × Bytes)
  | [t, h] => .ok (ts, t, h)
  | _ => .error "invalid ID"

/-- The tail of `splitCollectionID` after the 8 timestamp bytes: the
byte at offset 9 must be `'-'`, and the remainder must split into
exactly two `-`-separated fields. -/
def splitAfterTs (ts : Int) : Bytes → Except String (Int × Bytes × Bytes)
  | [] => .error "invalid ID"
  | d :: rest' =>
    if d ≠ dashByte then .error "invalid ID"
    else splitParts ts (goSplitOn dashByte rest')

/-- `splitCollectionID`: decodes an event key
`'e' ‖ ts_be8 ‖ '-' ‖ tag ‖ '-' ‖ hash` into its components, failing
exactly where the source does. -/
def splitCollectionID : Bytes → Except String (Int × Bytes × Bytes)
  | [] => .error "invalid ID"
  | c :: rest =>
    if c ≠ eventKeyPrefix then .error "invalid ID prefix"
    else if rest.length < 8 + 2 then .error "invalid ID"
    else splitAfterTs (parseTs (rest.take 8)) (rest.drop 8)

/-- The event-row key built by `StoreEvents`:
`idStr = 'e' + formatTs(ts) + "-" + tag + "-" + hash`. -/
def eventKey (ts : Int) (tag hash : Bytes) : Bytes :=
  eventKeyPrefix :: formatTs ts ++ dashByte :: tag ++ dashByte :: hash

/-- A byte allowed by the tag pattern `[A-Za-z0-9_./]`. -/
def isTagByte (b : Nat) : Bool :=
  (48 ≤ b && b ≤ 57) || (65 ≤ b && b ≤ 90) || (97 ≤ b && b ≤ 122) ||
  b = 95 || b = 46 || b = 47

/-- A byte allowed by the hash pattern `[A-Za-z0-9]`. -/
def isHashByte (b : Nat) : Bool :=
  (48 ≤ b && b ≤ 57) || (65 ≤ b && b ≤ 90) || (97 ≤ b && b ≤ 122)

/-- The tag pattern `^[a-zA-Z0-9_./]{1,256}$` on byte strings. -/
def validTagBytes (t : Bytes) : Bool :=
  1 ≤ t.length && t.length ≤ 256 && t.all isTagByte

/-- The hash pattern `^[a-zA-Z0-9]{1,16}$` on byte strings. -/
def validHashBytes (h : Bytes) : Bool :=
  1 ≤ h.length && h.length ≤ 16 && h.all isHashByte

theorem tagByte_ne_dash {b : Nat} (h : isTagByte b = true) : b ≠ dashByte := by
  simp only [isTagByte, Bool.or_eq_true, Bool.and_eq_true, decide_eq_true_eq] at h
  rcases h with ((⟨h1, h2⟩ | ⟨h1, h2⟩) | ⟨h1, h2⟩) | h | h | h <;>
    simp [dashByte] <;> omega

theorem hashByte_ne_dash {b : Nat} (h : isHashByte b = true) : b ≠ dashByte := by
  simp only [isHashByte, Bool.or_eq_true, Bool.and_eq_true, decide_eq_true_eq] at h
  rcases h with (⟨h1, h2⟩ | ⟨h1, h2⟩) | ⟨h1, h2⟩ <;>
    simp [dashByte] <;> omega

theorem goSplitOn_no_sep {sep : Nat} {l : Bytes} (h : sep ∉ l) :
    goSplitOn sep l = [l] := by
  induction l with
  | nil => rfl
  | cons b rest ih =>
    have hb : b ≠ sep := fun hbe => h (hbe ▸ List.mem_cons_self b rest)
    have hrest : sep ∉ rest := fun hm => h (List.mem_cons_of_mem b hm)
    simp [goSplitOn, ih hrest, hb]

theorem goSplitOn_append_sep {sep : Nat} {t h : Bytes}
    (ht : sep ∉ t) (hh : sep ∉ h) :
    goSplitOn sep (t ++ sep :: h) = [t, h] := by
  induction t with
  | nil => simp [goSplitOn, goSplitOn_no_sep hh]
  | cons b rest ih =>
    have hb : b ≠ sep := fun hbe => ht (hbe ▸ List.mem_cons_self b rest)
    have hrest : sep ∉ rest := fun hm => ht (List.mem_cons_of_mem b hm)
    show goSplitOn sep (b :: (rest ++ sep :: h)) = [b :: rest, h]
    simp [goSplitOn, ih hrest, hb]

theorem beVal_formatTs (ts : Int) (h0 : 0 ≤ ts) (h1 : ts < 2 ^ 63) :
    beVal (formatTs ts) = ts.toNat := by
  have hmod : ts % 2 ^ 64 = ts := Int.emod_eq_of_lt h0 (by omega)
  set u : Nat := (ts % 2 ^ 64).toNat with hu
  have huv : u = ts.toNat := by rw [hu, hmod]
  simp only [beVal, formatTs, List.foldl]
  omega

theorem formatTs_parseTs (ts : Int) (h0 : 0 ≤ ts) (h1 : ts < 2 ^ 63) :
    parseTs (formatTs ts) = ts := by
  simp only [parseTs, beVal_formatTs ts h0 h1]
  rw [if_pos (by omega)]
  omega

/-- **C2.** For every timestamp `0 ≤ ts < 2^63` (the int64 domain),
every tag matching the tag pattern, and every hash that is empty or
matches the hash pattern, decoding the encoded event key returns exactly
the original triple. -/
theorem c2_event_key_roundtrip (ts : Int) (tag hash : Bytes)
    (hts0 : 0 ≤ ts) (hts1 : ts < 2 ^ 63)
    (htag : validTagBytes tag = true)
    (hhash : hash = [] ∨ validHashBytes hash = true) :
    splitCollectionID (eventKey ts tag hash) = .ok (ts, tag, hash) := by
  have hlen8 : (formatTs ts).length = 8 := by simp [formatTs]
  have htagdash : dashByte ∉ tag := by
    intro hm
    have := (List.all_eq_true.mp (by
      simp only [validTagBytes, Bool.and_eq_true] at htag
      exact htag.2)) _ hm
    exact tagByte_ne_dash this rfl
  have hhashdash : dashByte ∉ hash := by
    rcases hhash with h | h
    · subst h; simp
    · intro hm
      have := (List.all_eq_true.mp (by
        simp only [validHashBytes, Bool.and_eq_true] at h
        exact h.2)) _ hm
      exact hashByte_ne_dash this rfl
  have htaglen : 1 ≤ tag.length := by
    simp only [validTagBytes, Bool.and_eq_true, decide_eq_true_eq] at htag
    exact htag.1.1
  have hlen : ¬((formatTs ts ++ dashByte :: tag ++ dashByte :: hash).length < 8 + 2) := by
    simp [hlen8]; omega
  have htake : (formatTs ts ++ dashByte :: tag ++ dashByte :: hash).take 8 = formatTs ts := by
    rw [List.append_assoc, List.take_append_of_le_length (by omega),
      List.take_of_length_le (by omega)]
  have hdrop : (formatTs ts ++ dashByte :: tag ++ dashByte :: hash).drop 8 =
      dashByte :: (tag ++ dashByte :: hash) := by
    rw [List.append_assoc, List.drop_append_of_le_length (by omega),
      List.drop_of_length_le (by omega)]
    simp
  show splitCollectionID
      (eventKeyPrefix :: (formatTs ts ++ dashByte :: tag ++ dashByte :: hash)) = _
  simp only [splitCollectionID]
  rw [if_neg (fun h => h rfl), if_neg hlen, htake, hdrop]
  simp only [splitAfterTs]
  rw [if_neg (fun h => h rfl), goSplitOn_append_sep htagdash hhashdash]
  simp only [splitParts]
  rw [formatTs_parseTs ts hts0 hts1]

/-- Witness for C2 at `ts = 1000000`, `tag = "a"`, `hash = "b1"`. -/
theorem c2_event_key_roundtrip_witness :
    splitCollectionID (eventKey 1000000 [97] [98, 49]) = .ok (1000000, [97], [98, 49]) :=
  c2_event_key_roundtrip 1000000 [97] [98, 49] (by decide) (by decide)
    (by decide) (Or.inr (by decide))

/-! ## Dynamic values

Go `interface{}` values as they occur in events, filters and query
results.  `float64` is `Flt`: `none` is IEEE NaN, `some q` a finite
value (exact; JSON cannot carry NaN or infinities, so every float that
enters the store is finite).  `json.Number` values are represented by
the `float64` that `strconv.ParseFloat` assigns them (`0` when the text
does not parse; the comparator ignores the parse error), which is the
only way the program ever consumes them. -/

/-- Go `float64`: `none` is NaN. -/
abbrev Flt := Option ℚ

/-- IEEE `==` on float64: false whenever either side is NaN. -/
def fltEq : Flt → Flt → Bool
  | some a, some b => a = b
  | _, _ => false

/-- IEEE `<` on float64: false whenever either side is NaN. -/
def fltLt : Flt → Flt → Bool
  | some a, some b => a < b
  | _, _ => false

/-- IEEE `+` on float64: NaN absorbs. -/
def fltAdd : Flt → Flt → Flt
  | some a, some b => some (a + b)
  | _, _ => none

/-- `math.IsNaN`. -/
def fltIsNaN : Flt → Bool
  | none => true
  | some _ => false

/-- A dynamically-typed Go value (`interface{}`) as it occurs in this
program: `vInt` is Go `int`, `vInt64` is Go `int64` (the decoded `_ts`
field), `vTime` is a `time.Time` holding the instant `us` microseconds
after the epoch (every `time.Time` the program creates comes from
`fromMicrosecondTime`), and `vNum` is `json.Number`.  Nested JSON
sequences and mappings are omitted from the model; like `vBool`,
`vNull`, `vInt64` and `vTime` they take the `-1` fallthrough of the
comparator and the `0.0` numeric coercion, so the modelled kinds
already exercise every unrecognized-value path. -/
inductive Value where
  | vInt (n : Int)
  | vInt64 (n : Int)
  | vFloat (f : Flt)
  | vStr (s : String)
  | vNum (q : ℚ)
  | vBool (b : Bool)
  | vNull
  | vTime (us : Int)
  deriving DecidableEq

/-- `compareInterfaces`: the left-hand type drives the dispatch; the
`int` case returns the raw (wrapped) difference, every unmatched pair
falls through to `-1`. -/
def compareInterfaces : Value → Value → Int
  | .vInt a, .vInt b => wrap64 (a - b)
  | .vFloat a, .vFloat b =>
    if fltEq a b then 0 else if fltLt a b then -1 else 1
  | .vStr a, .vStr b =>
    if a = b then 0 else if a < b then -1 else 1
  | .vNum a, .vNum b =>
    if a = b then 0 else if a < b then -1 else 1
  | _, _ => -1

/-- `checkEquals`. -/
def checkEquals (a b : Value) : Bool :=
  compareInterfaces a b = 0

/-- The pairs given a typed comparison by `compareInterfaces`; every
other pair (cross-type or unrecognized type) takes the `-1` fallthrough. -/
def recognizedPair : Value → Value → Bool
  | .vInt _, .vInt _ => true
  | .vFloat _, .vFloat _ => true
  | .vStr _, .vStr _ => true
  | .vNum _, .vNum _ => true
  | _, _ => false

theorem wrap64_eq_self {d : Int} (h0 : -(2 ^ 63) ≤ d) (h1 : d < 2 ^ 63) :
    wrap64 d = d := by
  unfold wrap64
  rw [Int.emod_eq_of_lt (by omega) (by omega)]
  omega

/-- **C4, counterexample.** `compare(2, 0)` on Go ints returns `2`,
which is outside `{-1, 0, +1}` and is not the clamped sign `1` of the
difference: the int/int case is not clamped. -/
theorem c4_compare_clamped_counterexample :
    compareInterfaces (.vInt 2) (.vInt 0) = 2 ∧
    ¬(compareInterfaces (.vInt 2) (.vInt 0) = -1 ∨
      compareInterfaces (.vInt 2) (.vInt 0) = 0 ∨
      compareInterfaces (.vInt 2) (.vInt 0) = 1) := by
  constructor
  · decide
  · decide

/-- **C4, amended.** `compare(a, b)` returns, for two Go ints, the
64-bit wrapped difference `a - b` itself (not clamped; it equals the
arithmetic difference whenever that difference fits in int64, so its
sign is then the sign of the difference); for float/float, string/string
and number/number pairs it returns a value in `{-1, 0, +1}` that is `0`
exactly on equality and `-1` exactly on strict less-than (NaN making
both tests false, so the float clauses carry the equality/less-than
tests explicitly); and for every cross-type or unrecognized pair it
returns `-1`. -/
theorem c4_compare_characterization :
    (∀ a b : Int, compareInterfaces (.vInt a) (.vInt b) = wrap64 (a - b)) ∧
    (∀ a b : Int, -(2 ^ 63) ≤ a - b → a - b < 2 ^ 63 →
      compareInterfaces (.vInt a) (.vInt b) = a - b) ∧
    (∀ x y : Flt,
      (compareInterfaces (.vFloat x) (.vFloat y) = -1 ∨
       compareInterfaces (.vFloat x) (.vFloat y) = 0 ∨
       compareInterfaces (.vFloat x) (.vFloat y) = 1) ∧
      (compareInterfaces (.vFloat x) (.vFloat y) = 0 ↔ fltEq x y = true) ∧
      (compareInterfaces (.vFloat x) (.vFloat y) = -1 ↔
        fltEq x y = false ∧ fltLt x y = true)) ∧
    (∀ x y : String,
      (compareInterfaces (.vStr x) (.vStr y) = -1 ∨
       compareInterfaces (.vStr x) (.vStr y) = 0 ∨
       compareInterfaces (.vStr x) (.vStr y) = 1) ∧
      (compareInterfaces (.vStr x) (.vStr y) = 0 ↔ x = y) ∧
      (compareInterfaces (.vStr x) (.vStr y) = -1 ↔ x < y)) ∧
    (∀ x y : ℚ,
      (compareInterfaces (.vNum x) (.vNum y) = -1 ∨
       compareInterfaces (.vNum x) (.vNum y) = 0 ∨
       compareInterfaces (.vNum x) (.vNum y) = 1) ∧
      (compareInterfaces (.vNum x) (.vNum y) = 0 ↔ x = y) ∧
      (compareInterfaces (.vNum x) (.vNum y) = -1 ↔ x < y)) ∧
    (∀ a b : Value, recognizedPair a b = false → compareInterfaces a b = -1) := by
  refine ⟨fun a b => rfl, ?_, ?_, ?_, ?_, ?_⟩
  · intro a b h0 h1
    show wrap64 (a - b) = a - b
    exact wrap64_eq_self h0 h1
  · intro x y
    refine ⟨?_, ?_, ?_⟩ <;> simp only [compareInterfaces] <;> split_ifs <;> simp_all
  · intro x y
    refine ⟨?_, ?_, ?_⟩
    · simp only [compareInterfaces]; split_ifs <;> simp_all
    · simp only [compareInterfaces]; split_ifs <;> simp_all
    · simp only [compareInterfaces]
      by_cases h1 : x = y
      · subst h1
        rw [if_pos rfl]
        exact ⟨fun h => absurd h (by decide), fun h => absurd h (lt_irrefl x)⟩
      · rw [if_neg h1]
        by_cases h2 : x < y
        · rw [if_pos h2]
          exact ⟨fun _ => h2, fun _ => rfl⟩
        · rw [if_neg h2]
          exact ⟨fun h => absurd h (by decide), fun h => absurd h h2⟩
  · intro x y
    refine ⟨?_, ?_, ?_⟩
    · simp only [compareInterfaces]; split_ifs <;> simp_all
    · simp only [compareInterfaces]; split_ifs <;> simp_all
    · simp only [compareInterfaces]
      by_cases h1 : x = y
      · subst h1
        rw [if_pos rfl]
        exact ⟨fun h => absurd h (by decide), fun h => absurd h (lt_irrefl x)⟩
      · rw [if_neg h1]
        by_cases h2 : x < y
        · rw [if_pos h2]
          exact ⟨fun _ => h2, fun _ => rfl⟩
        · rw [if_neg h2]
          exact ⟨fun h => absurd h (by decide), fun h => absurd h h2⟩
  · intro a b h
    cases a <;> cases b <;> first
      | rfl
      | (exfalso; simp [recognizedPair] at h)

/-- Witness for C4: `compare(5, 2) = 3` via the fitting-difference
clause, and `compare("a", true) = -1` via the cross-type clause. -/
theorem c4_compare_characterization_witness :
    compareInterfaces (.vInt 5) (.vInt 2) = 3 ∧
    compareInterfaces (.vStr "a") (.vBool true) = -1 := by
  constructor
  · exact c4_compare_characterization.2.1 5 2 (by decide) (by decide)
  · exact c4_compare_characterization.2.2.2.2.2 (.vStr "a") (.vBool true) (by decide)

/-! ## Bytewise key ordering

The KV substrate compares keys with Go string `<`, which is bytewise
lexicographic: `bytesLt` models it. -/

/-- Go string `<` on byte strings: bytewise lexicographic. -/
def bytesLt : Bytes → Bytes → Bool
  | _, [] => false
  | [], _ :: _ => true
  | a :: as, b :: bs => decide (a < b) || (decide (a = b) && bytesLt as bs)

theorem bytesLt_cons_same {x : Nat} {as bs : Bytes} :
    bytesLt (x :: as) (x :: bs) = bytesLt as bs := by
  simp [bytesLt]

theorem bytesLt_append_iff {l1 l2 : Bytes} (r1 r2 : Bytes)
    (h : l1.length = l2.length) :
    bytesLt (l1 ++ r1) (l2 ++ r2) = true ↔
      (bytesLt l1 l2 = true ∨ (l1 = l2 ∧ bytesLt r1 r2 = true)) := by
  induction l1 generalizing l2 with
  | nil =>
    cases l2 with
    | nil => simp [bytesLt]
    | cons b bs => simp at h
  | cons a as ih =>
    cases l2 with
    | nil => simp at h
    | cons b bs =>
      simp only [List.length_cons, Nat.add_right_cancel_iff] at h
      by_cases hab : a < b
      · simp [bytesLt, hab]
      · by_cases heq : a = b
        · subst heq
          simp only [List.cons_append, bytesLt_cons_same]
          rw [ih h]
          simp [bytesLt_cons_same]
        · simp [bytesLt, hab, heq]

theorem beVal_acc (l : Bytes) :
    ∀ acc, l.foldl (fun a b => a * 256 + b) acc = acc * 256 ^ l.length + beVal l := by
  induction l with
  | nil => intro acc; simp [beVal]
  | cons x xs ih =>
    intro acc
    show xs.foldl (fun a b => a * 256 + b) (acc * 256 + x) =
      acc * 256 ^ (x :: xs).length + beVal (x :: xs)
    have h2 : beVal (x :: xs) = x * 256 ^ xs.length + beVal xs := by
      show xs.foldl (fun a b => a * 256 + b) (0 * 256 + x) = _
      rw [ih (0 * 256 + x)]
      ring
    rw [ih (acc * 256 + x), h2, List.length_cons]
    ring

theorem beVal_cons (x : Nat) (xs : Bytes) :
    beVal (x :: xs) = x * 256 ^ xs.length + beVal xs := by
  show xs.foldl (fun a b => a * 256 + b) (0 * 256 + x) = _
  rw [beVal_acc xs (0 * 256 + x)]
  ring

theorem mul_add_lt_mul_add {P u v x y : Nat} (hu : u < P) (hxy : x < y) :
    x * P + u < y * P + v := by
  have h1 : (x + 1) * P ≤ y * P := Nat.mul_le_mul_right P hxy
  have h2 : (x + 1) * P = x * P + P := by ring
  omega

theorem beVal_lt_bound {l : Bytes} (h : ∀ b ∈ l, b < 256) :
    beVal l < 256 ^ l.length := by
  induction l with
  | nil => simp [beVal]
  | cons x xs ih =>
    have hx : x < 256 := h x (List.mem_cons_self x xs)
    have hxs : ∀ b ∈ xs, b < 256 := fun b hb => h b (List.mem_cons_of_mem x hb)
    have hb := ih hxs
    have hc : beVal (x :: xs) = x * 256 ^ xs.length + beVal xs := beVal_cons x xs
    rw [hc, List.length_cons]
    have : (x + 1) * 256 ^ xs.length ≤ 256 * 256 ^ xs.length :=
      Nat.mul_le_mul_right _ (by omega)
    have hpow : 256 ^ (xs.length + 1) = 256 * 256 ^ xs.length := by ring
    have hsucc : (x + 1) * 256 ^ xs.length = x * 256 ^ xs.length + 256 ^ xs.length := by ring
    omega

theorem bytesLt_iff_beVal {l1 l2 : Bytes} (hlen : l1.length = l2.length)
    (h1 : ∀ b ∈ l1, b < 256) (h2 : ∀ b ∈ l2, b < 256) :
    bytesLt l1 l2 = true ↔ beVal l1 < beVal l2 := by
  induction l1 generalizing l2 with
  | nil =>
    cases l2 with
    | nil => simp [bytesLt, beVal]
    | cons b bs => simp at hlen
  | cons a as ih =>
    cases l2 with
    | nil => simp at hlen
    | cons b bs =>
      simp only [List.length_cons, Nat.add_right_cancel_iff] at hlen
      have ha : a < 256 := h1 a (List.mem_cons_self a as)
      have has : ∀ x ∈ as, x < 256 := fun x hx => h1 x (List.mem_cons_of_mem a hx)
      have hbs : ∀ x ∈ bs, x < 256 := fun x hx => h2 x (List.mem_cons_of_mem b hx)
      have hva := beVal_lt_bound has
      have hvb := beVal_lt_bound hbs
      rw [beVal_cons a as, beVal_cons b bs, hlen]
      rw [hlen] at hva
      constructor
      · intro h
        simp only [bytesLt, Bool.or_eq_true, Bool.and_eq_true, decide_eq_true_eq] at h
        rcases h with h | ⟨hab, hr⟩
        · exact mul_add_lt_mul_add hva h
        · subst hab
          have := (ih hlen has hbs).mp hr
          omega
      · intro h
        simp only [bytesLt, Bool.or_eq_true, Bool.and_eq_true, decide_eq_true_eq]
        rcases Nat.lt_trichotomy a b with hab | hab | hab
        · exact Or.inl hab
        · subst hab
          refine Or.inr ⟨rfl, (ih hlen has hbs).mpr ?_⟩
          omega
        · exfalso
          have := mul_add_lt_mul_add (v := beVal as) hvb hab
          omega

/-- A byte passing the tag or hash pattern is strictly greater than the
`'-'` separator, which is what makes event keys sort by `(ts, tag,
hash)` despite the variable-length fields. -/
theorem tagByte_gt_dash {b : Nat} (h : isTagByte b = true) : dashByte < b := by
  simp only [isTagByte, Bool.or_eq_true, Bool.and_eq_true, decide_eq_true_eq] at h
  rcases h with ((⟨h1, h2⟩ | ⟨h1, h2⟩) | ⟨h1, h2⟩) | h | h | h <;> simp [dashByte] <;> omega

theorem hashByte_gt_dash {b : Nat} (h : isHashByte b = true) : dashByte < b := by
  simp only [isHashByte, Bool.or_eq_true, Bool.and_eq_true, decide_eq_true_eq] at h
  rcases h with (⟨h1, h2⟩ | ⟨h1, h2⟩) | ⟨h1, h2⟩ <;> simp [dashByte] <;> omega

theorem bytesLt_sep {t1 t2 r1 r2 : Bytes}
    (h1 : ∀ b ∈ t1, dashByte < b) (h2 : ∀ b ∈ t2, dashByte < b) :
    bytesLt (t1 ++ dashByte :: r1) (t2 ++ dashByte :: r2) = true ↔
      (bytesLt t1 t2 = true ∨ (t1 = t2 ∧ bytesLt r1 r2 = true)) := by
  induction t1 generalizing t2 with
  | nil =>
    cases t2 with
    | nil => simp [bytesLt_cons_same, bytesLt]
    | cons b bs =>
      have hb := h2 b (List.mem_cons_self b bs)
      simp [bytesLt, hb]
  | cons a as ih =>
    have ha := h1 a (List.mem_cons_self a as)
    have has : ∀ b ∈ as, dashByte < b := fun b hb => h1 b (List.mem_cons_of_mem a hb)
    cases t2 with
    | nil =>
      have hna : ¬(a < dashByte) := by omega
      have hne : ¬(a = dashByte) := by omega
      simp [bytesLt, hna, hne]
    | cons b bs =>
      have hbs : ∀ x ∈ bs, dashByte < x := fun x hx => h2 x (List.mem_cons_of_mem b hx)
      by_cases hab : a < b
      · simp [bytesLt, hab]
      · by_cases heq : a = b
        · subst heq
          simp only [List.cons_append, bytesLt_cons_same]
          rw [ih has hbs]
          simp [bytesLt, hab]
        · simp [bytesLt, hab, heq]

theorem formatTs_bytes {ts : Int} : ∀ b ∈ formatTs ts, b < 256 := by
  intro b hb
  simp only [formatTs, List.mem_cons, List.not_mem_nil, or_false] at hb
  rcases hb with h | h | h | h | h | h | h | h <;> subst h <;> omega

theorem formatTs_length (ts : Int) : (formatTs ts).length = 8 := by
  simp [formatTs]

theorem formatTs_lt_iff {ts1 ts2 : Int} (h10 : 0 ≤ ts1) (h11 : ts1 < 2 ^ 63)
    (h20 : 0 ≤ ts2) (h21 : ts2 < 2 ^ 63) :
    (bytesLt (formatTs ts1) (formatTs ts2) = true ↔ ts1 < ts2) := by
  rw [bytesLt_iff_beVal (by simp [formatTs_length]) formatTs_bytes formatTs_bytes,
    beVal_formatTs ts1 h10 h11, beVal_formatTs ts2 h20 h21]
  omega

theorem formatTs_inj {ts1 ts2 : Int} (h10 : 0 ≤ ts1) (h11 : ts1 < 2 ^ 63)
    (h20 : 0 ≤ ts2) (h21 : ts2 < 2 ^ 63) :
    (formatTs ts1 = formatTs ts2 ↔ ts1 = ts2) := by
  constructor
  · intro h
    have := congrArg parseTs h
    rwa [formatTs_parseTs ts1 h10 h11, formatTs_parseTs ts2 h20 h21] at this
  · intro h; rw [h]

theorem validTag_gt_dash {t : Bytes} (h : validTagBytes t = true) :
    ∀ b ∈ t, dashByte < b := by
  intro b hb
  simp only [validTagBytes, Bool.and_eq_true, decide_eq_true_eq] at h
  exact tagByte_gt_dash (List.all_eq_true.mp h.2 b hb)

theorem validHashOpt_gt_dash {t : Bytes} (h : t = [] ∨ validHashBytes t = true) :
    ∀ b ∈ t, dashByte < b := by
  intro b hb
  rcases h with h | h
  · subst h; simp at hb
  · simp only [validHashBytes, Bool.and_eq_true, decide_eq_true_eq] at h
    exact hashByte_gt_dash (List.all_eq_true.mp h.2 b hb)

/-- **C8.** For valid triples with int64-representable non-negative
timestamps, encoded event keys sort bytewise exactly as the triples
`(ts, tag, hash)` sort lexicographically; in particular, equal tags and
`ts1 < ts2` give strictly sorted keys. -/
theorem c8_key_order (ts1 ts2 : Int) (tag1 tag2 hash1 hash2 : Bytes)
    (h10 : 0 ≤ ts1) (h11 : ts1 < 2 ^ 63) (h20 : 0 ≤ ts2) (h21 : ts2 < 2 ^ 63)
    (htag1 : validTagBytes tag1 = true) (htag2 : validTagBytes tag2 = true)
    (hh1 : hash1 = [] ∨ validHashBytes hash1 = true)
    (hh2 : hash2 = [] ∨ validHashBytes hash2 = true) :
    (bytesLt (eventKey ts1 tag1 hash1) (eventKey ts2 tag2 hash2) = true ↔
      (ts1 < ts2 ∨ (ts1 = ts2 ∧ (bytesLt tag1 tag2 = true ∨
        (tag1 = tag2 ∧ bytesLt hash1 hash2 = true))))) ∧
    (ts1 < ts2 → tag1 = tag2 →
      bytesLt (eventKey ts1 tag1 hash1) (eventKey ts2 tag2 hash2) = true) := by
  have hmain : bytesLt (eventKey ts1 tag1 hash1) (eventKey ts2 tag2 hash2) = true ↔
      (ts1 < ts2 ∨ (ts1 = ts2 ∧ (bytesLt tag1 tag2 = true ∨
        (tag1 = tag2 ∧ bytesLt hash1 hash2 = true)))) := by
    show bytesLt
        (eventKeyPrefix :: (formatTs ts1 ++ (dashByte :: tag1 ++ dashByte :: hash1)))
        (eventKeyPrefix :: (formatTs ts2 ++ (dashByte :: tag2 ++ dashByte :: hash2))) =
        true ↔ _
    rw [bytesLt_cons_same]
    show bytesLt (formatTs ts1 ++ (dashByte :: (tag1 ++ dashByte :: hash1)))
        (formatTs ts2 ++ (dashByte :: (tag2 ++ dashByte :: hash2))) = true ↔ _
    rw [bytesLt_append_iff _ _ (by simp [formatTs_length])]
    rw [formatTs_lt_iff h10 h11 h20 h21, formatTs_inj h10 h11 h20 h21,
      bytesLt_cons_same,
      bytesLt_sep (validTag_gt_dash htag1) (validTag_gt_dash htag2)]
  refine ⟨hmain, fun hlt htag => ?_⟩
  exact hmain.mpr (Or.inl hlt)

/-- Witness for C8 at `ts1 = 1 < ts2 = 2`, tag `"a"`, hashes empty. -/
theorem c8_key_order_witness :
    bytesLt (eventKey 1 [97] []) (eventKey 2 [97] []) = true :=
  (c8_key_order 1 2 [97] [97] [] [] (by decide) (by decide) (by decide) (by decide)
    (by decide) (by decide) (Or.inl rfl) (Or.inl rfl)).2 (by decide) rfl

/-! ## Strings, events and the stored collection

Go strings are byte strings; all strings this program puts into keys
are ASCII, where the byte sequence coincides with the codepoint
sequence, so strings are bridged to `Bytes` through codepoints. -/

/-- The bytes of a Go string (codepoints; identical to UTF-8 for the
ASCII strings that reach keys). -/
def strBytes (s : String) : Bytes := s.data.map Char.toNat

/-- Rebuild a Go string from bytes (inverse of `strBytes` on ASCII). -/
def bytesToStr (bs : Bytes) : String := String.mk (bs.map Char.ofNat)

/-- A Go event: a string-keyed map with dynamically typed values,
modelled as an association list with at most one entry per key. -/
abbrev Event := List (String × Value)

/-- Go map read `e[k]`: `none` models a missing key. -/
def evGet (e : Event) (k : String) : Option Value :=
  (e.find? (fun p => p.1 == k)).map (·.2)

/-- Go map write `e[k] = v`.  A Go map is unordered, so the
association list is kept canonical by removing any old binding and
prepending the new one; only `evGet` observes it. -/
def evSet (e : Event) (k : String) (v : Value) : Event :=
  (k, v) :: e.filter (fun p => ¬(p.1 == k))

/-- Go `delete(e, k)`. -/
def evDel (e : Event) (k : String) : Event := e.filter (fun p => ¬(p.1 == k))

/-- A stored row value.  Version rows hold decimal ASCII strings
(`sStr`); event rows hold the JSON marshalling of an event, modelled by
the event itself (`sJson`) since the JSON codec is injective and is an
external collaborator per the specification. -/
inductive StoredVal where
  | sStr (s : Bytes)
  | sJson (e : Event)
  deriving DecidableEq

/-- The persistent collection: an association list from keys to stored
values with at most one entry per key (`lm2` semantics: `Set` on an
existing key overwrites). -/
abbrev Store := List (Bytes × StoredVal)

/-- KV read. -/
def storeGet (st : Store) (k : Bytes) : Option StoredVal :=
  (st.find? (fun p => p.1 == k)).map (·.2)

/-- KV write: overwrite or insert.  The underlying collection is
key-sorted, so the list position of a row carries no meaning: reads
search by key and queries sort the scanned range by key. -/
def storeSet (st : Store) (k : Bytes) (v : StoredVal) : Store :=
  (k, v) :: st.filter (fun p => ¬(p.1 == k))

/-- Committing a write batch: apply its `Set` operations in order. -/
def applyBatch (st : Store) (sets : List (Bytes × StoredVal)) : Store :=
  sets.foldl (fun s p => storeSet s p.1 p.2) st

theorem find?_filter_ne {k k' : Bytes} (h : k ≠ k') (st : Store) :
    (st.filter (fun p => ¬(p.1 == k))).find? (fun p => p.1 == k') =
      st.find? (fun p => p.1 == k') := by
  induction st with
  | nil => rfl
  | cons q qs ih =>
    by_cases hq : q.1 == k
    · have hqk : q.1 = k := by simpa using hq
      rw [List.filter_cons_of_neg (by simpa using hq),
        List.find?_cons_of_neg _ (by simpa [hqk] using h)]
      exact ih
    · rw [List.filter_cons_of_pos (by simpa using hq)]
      by_cases hq' : q.1 == k'
      · rw [List.find?_cons_of_pos (List.filter (fun p => ¬(p.1 == k)) qs) hq',
          List.find?_cons_of_pos qs hq']
      · rw [List.find?_cons_of_neg (List.filter (fun p => ¬(p.1 == k)) qs) hq',
          List.find?_cons_of_neg qs hq']
        exact ih

theorem storeGet_storeSet_self (st : Store) (k : Bytes) (v : StoredVal) :
    storeGet (storeSet st k v) k = some v := by
  simp [storeGet, storeSet, List.find?]

theorem storeGet_storeSet_other (st : Store) (k k' : Bytes) (v : StoredVal)
    (h : k ≠ k') : storeGet (storeSet st k v) k' = storeGet st k' := by
  unfold storeGet storeSet
  rw [List.find?_cons_of_neg _ (by simpa using h), find?_filter_ne h]

/-! ## Decimal integers: `strconv.Itoa` and `strconv.Atoi` -/

/-- Little-endian decimal digits, structurally recursive on a fuel
bound (any fuel at least the number itself is enough, since the
quotient strictly shrinks). -/
def digitsRevAux : Nat → Nat → List Nat
  | 0, _ => []
  | _ + 1, 0 => []
  | n + 1, fuel + 1 => (n + 1) % 10 :: digitsRevAux ((n + 1) / 10) fuel

/-- Little-endian decimal digits of a natural number (empty for 0). -/
def digitsRev (n : Nat) : List Nat := digitsRevAux n n

theorem digitsRevAux_fuel :
    ∀ (f1 n f2 : Nat), n ≤ f1 → n ≤ f2 → digitsRevAux n f1 = digitsRevAux n f2 := by
  intro f1
  induction f1 with
  | zero =>
    intro n f2 h1 _
    match n, h1 with
    | 0, _ => cases f2 <;> rfl
  | succ f ih =>
    intro n f2 h1 h2
    match n, h1, h2 with
    | 0, _, _ => cases f2 <;> rfl
    | m + 1, h1, h2 =>
      match f2, h2 with
      | g + 1, h2 =>
        show (m + 1) % 10 :: digitsRevAux ((m + 1) / 10) f =
          (m + 1) % 10 :: digitsRevAux ((m + 1) / 10) g
        rw [ih ((m + 1) / 10) g (by omega) (by omega)]

theorem digitsRev_succ (n : Nat) :
    digitsRev (n + 1) = (n + 1) % 10 :: digitsRev ((n + 1) / 10) := by
  show (n + 1) % 10 :: digitsRevAux ((n + 1) / 10) n = _
  rw [digitsRevAux_fuel n ((n + 1) / 10) ((n + 1) / 10) (by omega) (by omega)]
  rfl

/-- The value of a big-endian decimal digit string. -/
def decVal (l : List Nat) : Nat :=
  l.foldl (fun a d => a * 10 + d) 0

/-- `strconv.Itoa` of a natural number: decimal ASCII bytes. -/
def itoaNat (n : Nat) : Bytes :=
  if n = 0 then [48] else (digitsRev n).reverse.map (fun d => 48 + d)

/-- `strconv.Itoa`: decimal ASCII, `'-'`-prefixed when negative. -/
def itoa (v : Int) : Bytes :=
  if v < 0 then dashByte :: itoaNat (-v).toNat else itoaNat v.toNat

/-- The digit-accumulating loop of `strconv.Atoi`. -/
def atoiCore (acc : Nat) : Bytes → Option Nat
  | [] => some acc
  | d :: ds => if 48 ≤ d ∧ d ≤ 57 then atoiCore (acc * 10 + (d - 48)) ds else none

/-- The int64 range check of `strconv.Atoi` for an unsigned magnitude
with the given sign (`strconv.Atoi` reports `ErrRange` outside int64). -/
def atoiRange (neg : Bool) (n : Nat) : Option Int :=
  if neg then (if (n : Int) ≤ 2 ^ 63 then some (-(n : Int)) else none)
  else (if (n : Int) ≤ 2 ^ 63 - 1 then some (n : Int) else none)

/-- `strconv.Atoi`: optional sign, one or more decimal digits, int64
range check; everything else is a syntax error (`none`). -/
def goAtoi : Bytes → Option Int
  | [] => none
  | d :: ds =>
    if d = 43 then (if ds = [] then none else (atoiCore 0 ds).bind (atoiRange false))
    else if d = 45 then (if ds = [] then none else (atoiCore 0 ds).bind (atoiRange true))
    else (atoiCore 0 (d :: ds)).bind (atoiRange false)

theorem digitsRev_lt (n : Nat) : ∀ d ∈ digitsRev n, d < 10 := by
  induction n using Nat.strong_induction_on with
  | _ n ih =>
    match n with
    | 0 => simp [digitsRev, digitsRevAux]
    | m + 1 =>
      intro d hd
      rw [digitsRev_succ] at hd
      rcases List.mem_cons.mp hd with rfl | h
      · omega
      · exact ih ((m + 1) / 10) (by omega) d h

theorem atoiCore_digits (l : List Nat) (hl : ∀ d ∈ l, d < 10) :
    ∀ acc, atoiCore acc (l.map (fun d => 48 + d)) =
      some (l.foldl (fun a d => a * 10 + d) acc) := by
  induction l with
  | nil => intro acc; rfl
  | cons d ds ih =>
    intro acc
    have hd : d < 10 := hl d (List.mem_cons_self d ds)
    have hds : ∀ x ∈ ds, x < 10 := fun x hx => hl x (List.mem_cons_of_mem d hx)
    simp only [List.map_cons, atoiCore, List.foldl]
    rw [if_pos (by omega)]
    have harg : acc * 10 + (48 + d - 48) = acc * 10 + d := by omega
    rw [harg]
    exact ih hds (acc * 10 + d)

theorem decVal_acc (l : List Nat) :
    ∀ acc, l.foldl (fun a d => a * 10 + d) acc = acc * 10 ^ l.length + decVal l := by
  induction l with
  | nil => intro acc; simp [decVal]
  | cons d ds ih =>
    intro acc
    show ds.foldl (fun a d => a * 10 + d) (acc * 10 + d) = acc * 10 ^ (d :: ds).length + decVal (d :: ds)
    have h2 : decVal (d :: ds) = d * 10 ^ ds.length + decVal ds := by
      show ds.foldl (fun a d => a * 10 + d) (0 * 10 + d) = _
      rw [ih (0 * 10 + d)]
      ring
    rw [ih (acc * 10 + d), h2, List.length_cons]
    ring

theorem decVal_digitsRev (n : Nat) : decVal (digitsRev n).reverse = n := by
  induction n using Nat.strong_induction_on with
  | _ n ih =>
    match n with
    | 0 => rfl
    | m + 1 =>
      rw [digitsRev_succ, List.reverse_cons]
      show ((digitsRev ((m + 1) / 10)).reverse ++ [(m + 1) % 10]).foldl
        (fun a d => a * 10 + d) 0 = m + 1
      rw [List.foldl_append]
      have hih : decVal (digitsRev ((m + 1) / 10)).reverse = (m + 1) / 10 :=
        ih ((m + 1) / 10) (by omega)
      show ([((m + 1) % 10)]).foldl (fun a d => a * 10 + d)
        (decVal (digitsRev ((m + 1) / 10)).reverse) = m + 1
      rw [hih]
      show (m + 1) / 10 * 10 + (m + 1) % 10 = m + 1
      omega

theorem itoaNat_spec (n : Nat) :
    atoiCore 0 (itoaNat n) = some n ∧
    ∃ b bs, itoaNat n = b :: bs ∧ 48 ≤ b ∧ b ≤ 57 := by
  by_cases h : n = 0
  · subst h
    exact ⟨rfl, 48, [], rfl, by omega, by omega⟩
  · have hne : digitsRev n ≠ [] := by
      match n, h with
      | m + 1, _ => rw [digitsRev_succ]; simp
    have hdig : ∀ d ∈ (digitsRev n).reverse, d < 10 := by
      intro d hd
      exact digitsRev_lt n d (List.mem_reverse.mp hd)
    constructor
    · rw [itoaNat, if_neg h, atoiCore_digits _ hdig 0]
      show some (decVal (digitsRev n).reverse) = some n
      rw [decVal_digitsRev]
    · rw [itoaNat, if_neg h]
      have : (digitsRev n).reverse ≠ [] := by simpa using hne
      match hrev : (digitsRev n).reverse, this with
      | d :: ds, _ =>
        refine ⟨48 + d, ds.map (fun d => 48 + d), by simp, by omega, ?_⟩
        have : d < 10 := by
          have := hdig d
          rw [hrev] at this
          exact this (List.mem_cons_self d ds)
        omega

theorem goAtoi_itoa (v : Int) (h0 : 0 ≤ v) (h1 : v < 2 ^ 63) :
    goAtoi (itoa v) = some v := by
  rw [itoa, if_neg (by omega)]
  obtain ⟨hcore, b, bs, hb, hb48, hb57⟩ := itoaNat_spec v.toNat
  rw [hb] at hcore ⊢
  have h43 : ¬(b = 43) := by omega
  have h45 : ¬(b = 45) := by omega
  rw [goAtoi, if_neg h43, if_neg h45, hcore]
  show atoiRange false v.toNat = some v
  have hrange : ((v.toNat : Int) ≤ 2 ^ 63 - 1) := by omega
  rw [atoiRange, if_pos hrange]
  exact congrArg some (by omega)

/-! ## Time

`time.Time` instants are pairs (seconds since epoch, nanoseconds in
`[0, 10^9)`), as `time.Parse` produces them.  The wall-clock/monotonic
and location fields are ignored: the program only compares instants and
converts them to and from microseconds. -/

/-- An instant: seconds since the Unix epoch plus nanoseconds. -/
structure TimeSpec where
  sec : Int
  ns : Nat
  deriving DecidableEq

/-- `time.Unix(0, 0)`, the `minTimestamp` of the source. -/
def minTimestamp : TimeSpec := ⟨0, 0⟩

/-- `time.Time.Before`. -/
def tsBefore (a b : TimeSpec) : Bool :=
  decide (a.sec < b.sec) || (decide (a.sec = b.sec) && decide (a.ns < b.ns))

/-- `toMicrosecondTime`: `t.Unix()*1000000 + int64(t.Nanosecond())/1000`. -/
def toMicrosecondTime (t : TimeSpec) : Int :=
  t.sec * 1000000 + (t.ns : Int) / 1000

/-- `time.Unix(sec, nsec)` for `|nsec| < 10^9`, the only way the model
calls it: normalize a negative nanosecond field. -/
def goUnix (sec nsec : Int) : TimeSpec :=
  if nsec < 0 then ⟨sec - 1, (nsec + 1000000000).toNat⟩ else ⟨sec, nsec.toNat⟩

/-- `fromMicrosecondTime`: `time.Unix(t/1e6, (t%1e6)*1000)` with Go's
truncated division and remainder. -/
def fromMicrosecondTimeSpec (t : Int) : TimeSpec :=
  goUnix (Int.tdiv t 1000000) (Int.tmod t 1000000 * 1000)

/-! ### `time.Parse(time.RFC3339Nano, s)`

Modelled conservatively: the grammar accepted here is
`YYYY-MM-DDTHH:MM:SS(.d{1,9})?Z` with full range validation (months,
month lengths with Gregorian leap years, hours, minutes, seconds) — a
subset of what Go accepts (Go also takes `±hh:mm` offsets); every
string accepted here is accepted by Go with the same instant, and the
claims only evaluate concrete timestamps of this shape. -/

/-- A decimal digit character. -/
def digitV (c : Char) : Option Nat :=
  if 48 ≤ c.toNat ∧ c.toNat ≤ 57 then some (c.toNat - 48) else none

/-- Two decimal digit characters. -/
def d2 (a b : Char) : Option Nat :=
  match digitV a, digitV b with
  | some x, some y => some (x * 10 + y)
  | _, _ => none

/-- Four decimal digit characters. -/
def d4 (a b c d : Char) : Option Nat :=
  match digitV a, digitV b, digitV c, digitV d with
  | some x, some y, some z, some w => some (x * 1000 + y * 100 + z * 10 + w)
  | _, _, _, _ => none

/-- Proleptic Gregorian leap year. -/
def isLeap (y : Nat) : Bool :=
  y % 4 = 0 && (y % 100 ≠ 0 || y % 400 = 0)

/-- Length of a month. -/
def daysInMonth (y m : Nat) : Nat :=
  match m with
  | 1 => 31 | 2 => if isLeap y then 29 else 28
  | 3 => 31 | 4 => 30 | 5 => 31 | 6 => 30
  | 7 => 31 | 8 => 31 | 9 => 30 | 10 => 31 | 11 => 30 | 12 => 31
  | _ => 0

/-- Days from the epoch 1970-01-01 to the civil date `y-m-d`
(proleptic Gregorian; the same function Go's `time` package computes). -/
def daysFromCivil (y : Int) (m d : Nat) : Int :=
  let yy : Int := if m ≤ 2 then y - 1 else y
  let era : Int := (if 0 ≤ yy then yy else yy - 399).tdiv 400
  let yoe : Int := yy - era * 400
  let mp : Nat := (m + 9) % 12
  let doy : Nat := (153 * mp + 2) / 5 + d - 1
  let doe : Int := yoe * 365 + yoe.tdiv 4 - yoe.tdiv 100 + (doy : Int)
  era * 146097 + doe - 719468

/-- Assemble and range-check the parsed calendar fields. -/
def mkTime (y m d hh mi ss ns : Nat) : Option TimeSpec :=
  if 1 ≤ m ∧ m ≤ 12 ∧ 1 ≤ d ∧ d ≤ daysInMonth y m ∧ hh ≤ 23 ∧ mi ≤ 59 ∧ ss ≤ 59 then
    some ⟨daysFromCivil (y : Int) m d * 86400 + hh * 3600 + mi * 60 + ss, ns⟩
  else none

/-- Fractional-second digits followed by the closing `'Z'`:
accumulates 1-9 digits and scales to nanoseconds. -/
def fracGo : List Char → Nat → Nat → Option Nat
  | ['Z'], acc, len => if 1 ≤ len ∧ len ≤ 9 then some (acc * 10 ^ (9 - len)) else none
  | c :: rest, acc, len =>
    match digitV c with
    | some d => fracGo rest (acc * 10 + d) (len + 1)
    | none => none
  | [], _, _ => none

/-- The RFC3339Nano parser (see the section comment for the modelled
subset). -/
def parseRFC3339 (s : String) : Option TimeSpec :=
  match s.data with
  | [y1, y2, y3, y4, '-', m1, m2, '-', dd1, dd2, 'T',
     h1, h2, ':', mi1, mi2, ':', s1, s2, 'Z'] =>
    (match d4 y1 y2 y3 y4, d2 m1 m2, d2 dd1 dd2, d2 h1 h2, d2 mi1 mi2, d2 s1 s2 with
     | some y, some m, some d, some hh, some mi, some ss => mkTime y m d hh mi ss 0
     | _, _, _, _, _, _ => none)
  | y1 :: y2 :: y3 :: y4 :: '-' :: m1 :: m2 :: '-' :: dd1 :: dd2 :: 'T' ::
     h1 :: h2 :: ':' :: mi1 :: mi2 :: ':' :: s1 :: s2 :: '.' :: rest =>
    (match d4 y1 y2 y3 y4, d2 m1 m2, d2 dd1 dd2, d2 h1 h2, d2 mi1 mi2, d2 s1 s2,
       fracGo rest 0 0 with
     | some y, some m, some d, some hh, some mi, some ss, some ns =>
       mkTime y m d hh mi ss ns
     | _, _, _, _, _, _, _ => none)
  | _ => none

/-! ## Ingest: `Version` and `StoreEvents` -/

/-- `errNotFound`. -/
def errNotFound : String := "not found"

/-- The version-row key `'v' + "-" + tag`. -/
def versionKey (tag : String) : Bytes :=
  versionKeyPrefix :: dashByte :: strBytes tag

/-- `Version`: read the version row (`cursorGet` is an exact-key lookup
on the sorted collection) and parse it with `strconv.Atoi`.  A
marshalled JSON object at the version key is never a decimal integer,
so `Atoi` fails on it. -/
def Version (st : Store) (tag : String) : Except String Int :=
  match storeGet st (versionKey tag) with
  | none => .error errNotFound
  | some (.sStr s) =>
    match goAtoi s with
    | some v => .ok v
    | none => .error "invalid syntax"
  | some (.sJson _) => .error "invalid syntax"

/-- `CreateEventsRequest`; the `Version` field is accepted but unused. -/
structure CreateEventsRequest where
  Tag : String
  Version : Int
  Events : List Event

/-- The tag pattern `^[a-zA-Z0-9_./]{1,256}$` on Go strings (ASCII, so
characters and bytes coincide). -/
def validTagStr (s : String) : Bool :=
  1 ≤ s.data.length && s.data.length ≤ 256 && s.data.all (fun c => isTagByte c.toNat)

/-- `json.Marshal` succeeds on every modelled value except IEEE NaN
(which also cannot enter through JSON input). -/
def marshalableVal : Value → Bool
  | .vFloat none => false
  | _ => true

/-- `json.Marshal` of a whole event. -/
def marshalOk (e : Event) : Bool := e.all (fun p => marshalableVal p.2)

/-- The `_ts` validation block of `StoreEvents`: `_ts` must be present,
string-typed, RFC3339Nano-parseable and not before the Unix epoch. -/
def eventTs (e : Event) : Except String TimeSpec :=
  match evGet e "_ts" with
  | none => .error "missing event ts"
  | some (.vStr s) =>
    match parseRFC3339 s with
    | none => .error "ts is not formatted per RFC 3339"
    | some t => if tsBefore t minTimestamp then .error "ts before Unix epoch" else .ok t
  | some _ => .error "ts is not a string"

/-- The `_hash` extraction: a string-typed `_hash` is used verbatim
(no pattern check); anything else leaves the hash empty. -/
def eventHash (e : Event) : Bytes :=
  match evGet e "_hash" with
  | some (.vStr s) => strBytes s
  | _ => []

/-- The batch-building loop of `StoreEvents`: per event, strip `_id`,
marshal (marshalling precedes the `_ts` checks, as in the source),
validate `_ts`, queue the event-row `Set`. -/
def buildWriteBatch (tag : String) : List Event → Except String (List (Bytes × StoredVal))
  | [] => .ok []
  | ev :: rest =>
    if marshalOk (evDel ev "_id") then
      match eventTs (evDel ev "_id") with
      | .error e => .error e
      | .ok t =>
        match buildWriteBatch tag rest with
        | .error e => .error e
        | .ok sets =>
          .ok ((eventKey (toMicrosecondTime t) (strBytes tag)
              (eventHash (evDel ev "_id")), .sJson (evDel ev "_id")) :: sets)
    else .error "json: unsupported value"

/-- The version read inside `StoreEvents`: `not found` is recovered as
version 0; any other read error aborts. -/
def readVersion0 (st : Store) (tag : String) : Except String Int :=
  match Version st tag with
  | .ok v => .ok v
  | .error e =>
    if e = errNotFound then .ok 0 else .error "error getting tag version"

/-- `StoreEvents`: validate the tag, build the write batch, read the
tag version, append the bumped version row to the batch and commit it
atomically, returning the new version. -/
def StoreEvents (st : Store) (req : CreateEventsRequest) :
    Except String (Store × Int) :=
  if validTagStr req.Tag then
    match buildWriteBatch req.Tag req.Events with
    | .error e => .error e
    | .ok sets =>
      match readVersion0 st req.Tag with
      | .error e => .error e
      | .ok version =>
        .ok (applyBatch st
          (sets ++ [(versionKey req.Tag, .sStr (itoa (wrap64 (version + 1))))]),
          wrap64 (version + 1))
  else .error "invalid tag"

/-- Running a sequence of ingest calls, stopping at the first error. -/
def runStoreEvents (st : Store) : List CreateEventsRequest → Except String Store
  | [] => .ok st
  | r :: rs =>
    match StoreEvents st r with
    | .error e => .error e
    | .ok (st', _) => runStoreEvents st' rs

/-- An event the ingest pipeline accepts. -/
def validEvent (e : Event) : Bool :=
  marshalOk (evDel e "_id") &&
    (match eventTs (evDel e "_id") with | .ok _ => true | .error _ => false)

theorem applyBatch_append (st : Store) (sets : List (Bytes × StoredVal))
    (x : Bytes × StoredVal) :
    applyBatch st (sets ++ [x]) = storeSet (applyBatch st sets) x.1 x.2 := by
  simp [applyBatch, List.foldl_append]

theorem storeGet_applyBatch_untouched (sets : List (Bytes × StoredVal)) :
    ∀ (st : Store) (k : Bytes), (∀ p ∈ sets, p.1 ≠ k) →
      storeGet (applyBatch st sets) k = storeGet st k := by
  induction sets with
  | nil => intro st k _; rfl
  | cons x xs ih =>
    intro st k h
    show storeGet (applyBatch (storeSet st x.1 x.2) xs) k = storeGet st k
    rw [ih (storeSet st x.1 x.2) k (fun p hp => h p (List.mem_cons_of_mem x hp)),
      storeGet_storeSet_other st x.1 k x.2 (h x (List.mem_cons_self x xs))]

theorem buildWriteBatch_ok (tag : String) (evs : List Event)
    (hev : ∀ e ∈ evs, validEvent e = true) :
    ∃ sets, buildWriteBatch tag evs = .ok sets ∧
      ∀ p ∈ sets, p.1.head? = some eventKeyPrefix := by
  induction evs with
  | nil => exact ⟨[], rfl, by simp⟩
  | cons ev rest ih =>
    have hv := hev ev (List.mem_cons_self ev rest)
    simp only [validEvent, Bool.and_eq_true] at hv
    obtain ⟨hm, ht⟩ := hv
    obtain ⟨sets, hsets, hheads⟩ := ih (fun e he => hev e (List.mem_cons_of_mem ev he))
    cases heT : eventTs (evDel ev "_id") with
    | error e => rw [heT] at ht; simp at ht
    | ok t =>
      refine ⟨(eventKey (toMicrosecondTime t) (strBytes tag)
        (eventHash (evDel ev "_id")), .sJson (evDel ev "_id")) :: sets, ?_, ?_⟩
      · rw [buildWriteBatch, if_pos hm, heT, hsets]
      · intro p hp
        rcases List.mem_cons.mp hp with rfl | hp'
        · rfl
        · exact hheads p hp'

theorem versionKey_head (tag : String) :
    (versionKey tag).head? = some versionKeyPrefix := rfl

/-- One successful ingest bumps the version row from `k` to `k + 1`. -/
theorem storeEvents_version_step (st : Store) (req : CreateEventsRequest) (k : Int)
    (htag : validTagStr req.Tag = true)
    (hev : ∀ e ∈ req.Events, validEvent e = true)
    (hver : Version st req.Tag = .ok k ∨
      (Version st req.Tag = .error errNotFound ∧ k = 0))
    (hk0 : 0 ≤ k) (hk1 : k + 1 < 2 ^ 63) :
    ∃ st', StoreEvents st req = .ok (st', k + 1) ∧
      Version st' req.Tag = .ok (k + 1) := by
  obtain ⟨sets, hsets, hheads⟩ := buildWriteBatch_ok req.Tag req.Events hev
  have hwrap : wrap64 (k + 1) = k + 1 := wrap64_eq_self (by omega) (by omega)
  have hread : readVersion0 st req.Tag = .ok k := by
    rcases hver with h | ⟨h, rfl⟩ <;> rw [readVersion0, h] <;> simp [errNotFound]
  refine ⟨applyBatch st (sets ++ [(versionKey req.Tag, .sStr (itoa (k + 1)))]), ?_, ?_⟩
  · rw [StoreEvents, if_pos htag, hsets, hread]
    simp only [hwrap]
  · have hget : storeGet
        (applyBatch st (sets ++ [(versionKey req.Tag, .sStr (itoa (k + 1)))]))
        (versionKey req.Tag) = some (.sStr (itoa (k + 1))) := by
      rw [applyBatch_append]
      exact storeGet_storeSet_self _ _ _
    rw [Version, hget]
    simp only [goAtoi_itoa (k + 1) (by omega) (by omega)]

/-- A version read that fails with anything but `not found` aborts the
ingest with `error getting tag version`. -/
theorem storeEvents_version_abort (st : Store) (req : CreateEventsRequest) (e : String)
    (htag : validTagStr req.Tag = true)
    (hev : ∀ e ∈ req.Events, validEvent e = true)
    (hver : Version st req.Tag = .error e) (hne : e ≠ errNotFound) :
    StoreEvents st req = .error "error getting tag version" := by
  obtain ⟨sets, hsets, _⟩ := buildWriteBatch_ok req.Tag req.Events hev
  have hread : readVersion0 st req.Tag = .error "error getting tag version" := by
    rw [readVersion0, hver]
    simp [hne]
  rw [StoreEvents, if_pos htag, hsets, hread]

/-- Iterating `storeEvents_version_step` over a request list. -/
theorem storeEvents_fold (tag : String) (htag : validTagStr tag = true) :
    ∀ (reqs : List CreateEventsRequest) (st : Store) (k : Int),
      (∀ r ∈ reqs, r.Tag = tag ∧ ∀ e ∈ r.Events, validEvent e = true) →
      Version st tag = .ok k →
      0 ≤ k → k + reqs.length < 2 ^ 63 →
      ∃ st', runStoreEvents st reqs = .ok st' ∧
        Version st' tag = .ok (k + reqs.length) := by
  intro reqs
  induction reqs with
  | nil =>
    intro st k _ hver _ _
    exact ⟨st, rfl, by simpa using hver⟩
  | cons r rs ih =>
    intro st k hall hver hk0 hk1
    obtain ⟨hrtag, hrev⟩ := hall r (List.mem_cons_self r rs)
    obtain ⟨st1, hst1, hver1⟩ :=
      storeEvents_version_step st r k (hrtag ▸ htag) hrev (Or.inl (hrtag ▸ hver)) hk0
        (by simp at hk1 ⊢; omega)
    obtain ⟨st', hrun, hver'⟩ := ih st1 (k + 1)
      (fun q hq => hall q (List.mem_cons_of_mem r hq))
      (hrtag ▸ hver1) (by omega) (by simp at hk1 ⊢; omega)
    refine ⟨st', ?_, by rw [hver']; congr 1; simp; omega⟩
    rw [runStoreEvents, hst1]
    show runStoreEvents st1 rs = Except.ok st'
    exact hrun

/-- **C1.** A successful `StoreEvents` reads the tag's current version
(`not found` as 0), writes and returns `version + 1` (clause one); any
other read error aborts (clause two); and `N ≥ 1` successful calls on a
tag whose version row does not exist yet leave `Version` at `N`
(clause three; `N < 2^63` keeps the Go `int` increment from wrapping). -/
theorem c1_version_increment :
    (∀ (st : Store) (req : CreateEventsRequest) (k : Int),
      validTagStr req.Tag = true →
      (∀ e ∈ req.Events, validEvent e = true) →
      (Version st req.Tag = .ok k ∨
        (Version st req.Tag = .error errNotFound ∧ k = 0)) →
      0 ≤ k → k + 1 < 2 ^ 63 →
      ∃ st', StoreEvents st req = .ok (st', k + 1) ∧
        Version st' req.Tag = .ok (k + 1)) ∧
    (∀ (st : Store) (req : CreateEventsRequest) (e : String),
      validTagStr req.Tag = true →
      (∀ e ∈ req.Events, validEvent e = true) →
      Version st req.Tag = .error e → e ≠ errNotFound →
      StoreEvents st req = .error "error getting tag version") ∧
    (∀ (tag : String) (st : Store) (r : CreateEventsRequest)
        (rs : List CreateEventsRequest),
      validTagStr tag = true →
      storeGet st (versionKey tag) = none →
      (∀ q ∈ r :: rs, q.Tag = tag ∧ ∀ e ∈ q.Events, validEvent e = true) →
      (((r :: rs).length : Int) < 2 ^ 63) →
      ∃ st', runStoreEvents st (r :: rs) = .ok st' ∧
        Version st' tag = .ok (r :: rs).length) := by
  refine ⟨fun st req k htag hev hver hk0 hk1 =>
      storeEvents_version_step st req k htag hev hver hk0 hk1,
    fun st req e htag hev hver hne =>
      storeEvents_version_abort st req e htag hev hver hne, ?_⟩
  intro tag st r rs htag hfresh hall hlen
  have hnf : Version st tag = .error errNotFound := by
    rw [Version, hfresh]
  obtain ⟨hrtag, hrev⟩ := hall r (List.mem_cons_self r rs)
  obtain ⟨st1, hst1, hver1⟩ :=
    storeEvents_version_step st r 0 (hrtag ▸ htag) hrev
      (Or.inr ⟨hrtag ▸ hnf, rfl⟩) (by omega)
      (by simp at hlen; omega)
  obtain ⟨st', hrun, hver'⟩ := storeEvents_fold tag htag rs st1 1
    (fun q hq => hall q (List.mem_cons_of_mem r hq))
    (by simpa using hrtag ▸ hver1) (by omega) (by simp at hlen ⊢; omega)
  refine ⟨st', ?_, by rw [hver']; congr 1; simp; omega⟩
  rw [runStoreEvents]
  rw [show (0 : Int) + 1 = 1 from rfl] at hst1
  rw [hst1]
  show runStoreEvents st1 rs = Except.ok st'
  exact hrun

/-- Witness for C1: one ingest of one valid event into an empty
collection returns version 1, and `Version` then reads 1. -/
theorem c1_version_increment_witness :
    ∃ st', runStoreEvents ([] : Store)
        [⟨"a", 0, [[("_ts", Value.vStr "1970-01-01T00:00:01Z"), ("x", Value.vInt 1)]]⟩] =
        .ok st' ∧ Version st' "a" = .ok 1 :=
  c1_version_increment.2.2 "a" []
    ⟨"a", 0, [[("_ts", Value.vStr "1970-01-01T00:00:01Z"), ("x", Value.vInt 1)]]⟩ []
    (by decide) rfl (by decide) (by decide)

/-! ## Claim C3: invalid timestamps -/

/-- The four `invalid-ts` error messages of the `_ts` validation. -/
def invalidTsMsgs : List String :=
  ["missing event ts", "ts is not a string",
   "ts is not formatted per RFC 3339", "ts before Unix epoch"]

/-- An event whose `_ts` the ingest rejects. -/
def badTs (e : Event) : Bool :=
  match eventTs e with | .error _ => true | .ok _ => false

theorem eventTs_error_mem {e : Event} {m : String} (h : eventTs e = .error m) :
    m ∈ invalidTsMsgs := by
  rw [eventTs] at h
  rcases hg : evGet e "_ts" with _ | v
  · rw [hg] at h
    simp at h
    simp [← h, invalidTsMsgs]
  · rw [hg] at h
    cases v with
    | vStr s =>
      have h' : (match parseRFC3339 s with
        | none => Except.error "ts is not formatted per RFC 3339"
        | some t => if tsBefore t minTimestamp = true then Except.error "ts before Unix epoch"
            else Except.ok t) = Except.error m := h
      rcases hp : parseRFC3339 s with _ | t
      · simp only [hp] at h'
        simp at h'
        simp [← h', invalidTsMsgs]
      · simp only [hp] at h'
        split_ifs at h' with hb
        simp at h'
        simp [← h', invalidTsMsgs]
    | vInt n => simp at h; simp [← h, invalidTsMsgs]
    | vInt64 n => simp at h; simp [← h, invalidTsMsgs]
    | vFloat f => simp at h; simp [← h, invalidTsMsgs]
    | vNum q => simp at h; simp [← h, invalidTsMsgs]
    | vBool b => simp at h; simp [← h, invalidTsMsgs]
    | vNull => simp at h; simp [← h, invalidTsMsgs]
    | vTime us => simp at h; simp [← h, invalidTsMsgs]

theorem evGet_evDel_ne (e : Event) (kd k : String) (h : kd ≠ k) :
    evGet (evDel e kd) k = evGet e k := by
  unfold evGet evDel
  congr 1
  induction e with
  | nil => rfl
  | cons q qs ih =>
    by_cases hq : q.1 == kd
    · have hqk : q.1 = kd := by simpa using hq
      rw [List.filter_cons_of_neg (by simpa using hq),
        List.find?_cons_of_neg _ (by simp [hqk]; exact fun hc => h hc)]
      exact ih
    · rw [List.filter_cons_of_pos (by simpa using hq)]
      by_cases hq' : q.1 == k
      · rw [List.find?_cons_of_pos (qs.filter (fun p => ¬(p.1 == kd))) hq',
          List.find?_cons_of_pos qs hq']
      · rw [List.find?_cons_of_neg (qs.filter (fun p => ¬(p.1 == kd))) hq',
          List.find?_cons_of_neg qs hq']
        exact ih

theorem eventTs_evDel_id (e : Event) : eventTs (evDel e "_id") = eventTs e := by
  rw [eventTs, eventTs, evGet_evDel_ne e "_id" "_ts" (by decide)]

theorem buildWriteBatch_badTs (tag : String) (evs : List Event)
    (hmar : ∀ e ∈ evs, marshalOk (evDel e "_id") = true)
    (hbad : ∃ e ∈ evs, badTs e = true) :
    ∃ m, buildWriteBatch tag evs = .error m ∧ m ∈ invalidTsMsgs := by
  induction evs with
  | nil => simp at hbad
  | cons ev rest ih =>
    have hm := hmar ev (List.mem_cons_self ev rest)
    cases heT : eventTs (evDel ev "_id") with
    | error m =>
      exact ⟨m, by rw [buildWriteBatch, if_pos hm, heT], eventTs_error_mem heT⟩
    | ok t =>
      have hbad' : ∃ e ∈ rest, badTs e = true := by
        rcases hbad with ⟨e, he, hb⟩
        rcases List.mem_cons.mp he with rfl | he'
        · exfalso
          rw [badTs, ← eventTs_evDel_id, heT] at hb
          simp at hb
        · exact ⟨e, he', hb⟩
      obtain ⟨m, hm', hmem⟩ := ih (fun e he => hmar e (List.mem_cons_of_mem ev he)) hbad'
      refine ⟨m, ?_, hmem⟩
      rw [buildWriteBatch, if_pos hm, heT, hm']

/-- **C3, counterexample.** A request whose tag is invalid and whose
single event has no `_ts` fails with `invalid tag`, not with any
`invalid-ts` error: the tag check precedes every `_ts` check, so the
claim's "whenever any event has a bad `_ts`" quantification fails. -/
theorem c3_invalid_tag_counterexample :
    StoreEvents [] ⟨"!", 0, [[("x", Value.vInt 1)]]⟩ = .error "invalid tag" ∧
    "invalid tag" ∉ invalidTsMsgs ∧
    evGet [("x", Value.vInt 1)] "_ts" = none := by
  refine ⟨?_, by decide, rfl⟩
  rfl

/-- **C3, amended.** Provided the tag is valid and every event
marshals (no NaN floats — the only values `json.Marshal` rejects, and
ones JSON input cannot produce), `StoreEvents` fails with one of the
four `invalid-ts` errors whenever any event has `_ts` missing,
non-string, unparseable, or pre-epoch.  The failed call returns no
store: the write batch is discarded before commit, so `Version` and
the event rows are unchanged. -/
theorem c3_invalid_ts_errors (st : Store) (req : CreateEventsRequest)
    (htag : validTagStr req.Tag = true)
    (hmar : ∀ e ∈ req.Events, marshalOk (evDel e "_id") = true)
    (hbad : ∃ e ∈ req.Events, badTs e = true) :
    ∃ m, StoreEvents st req = .error m ∧ m ∈ invalidTsMsgs := by
  obtain ⟨m, hm, hmem⟩ := buildWriteBatch_badTs req.Tag req.Events hmar hbad
  refine ⟨m, ?_, hmem⟩
  rw [StoreEvents, if_pos htag, hm]

/-- Witness for C3 at scenario S2: a pre-epoch `_ts` is rejected. -/
theorem c3_invalid_ts_errors_witness :
    ∃ m, StoreEvents ([] : Store)
      ⟨"a", 0, [[("_ts", Value.vStr "1969-12-31T23:59:59Z")]]⟩ = .error m ∧
      m ∈ invalidTsMsgs :=
  c3_invalid_ts_errors []
    ⟨"a", 0, [[("_ts", Value.vStr "1969-12-31T23:59:59Z")]]⟩
    (by decide) (by decide) (by decide)

/-! ## The query evaluator

Two modelling notes.  Go map iteration order is unspecified; the model
fixes it to first-insertion order (which for the aggregate maps is
cursor order), a realizable order of the Go program.  Row keys are the
list of group-by values rather than their `0x00`-joined JSON texts:
JSON encoding is injective and `0x00`-free on the value domain, so the
two keyings coincide, and materialization decodes each part exactly as
the source does (`UseNumber` decoding turns numbers into
`json.Number`; a group-by `_ts` part is an `int64` whose decimal text
`strconv.Atoi` recovers). -/

/-- A group-by row key. -/
abbrev RowKey := List Value

structure ColumnDesc where
  Name : String
  Aggregate : String
  deriving DecidableEq

structure Filter where
  Column : String
  Condition : String
  Value : Value
  deriving DecidableEq

structure TimeRange where
  Start : TimeSpec
  End : TimeSpec
  deriving DecidableEq

structure QueryDesc where
  Columns : List ColumnDesc
  TimeRange : TimeRange
  GroupBy : List String
  Filters : List Filter
  PointSize : Int
  OrderBy : List String
  Descending : Bool
  Limit : Int
  deriving DecidableEq

/-- The result triple; `Query` echoes the descriptor. -/
structure QueryResult where
  Summary : List Event
  Series : List Event
  Events : List Event
  Query : QueryDesc
  deriving DecidableEq

/-- The filter loop: filters in declaration order; a missing column
silently drops the event (`ok false`); `eq` keeps iff compare is zero,
`neq` iff nonzero; any other condition fails the query. -/
def applyFilters : List Filter → Event → Except String Bool
  | [], _ => .ok true
  | f :: rest, e =>
    match evGet e f.Column with
    | some v =>
      if f.Condition = "eq" then
        (if checkEquals v f.Value then applyFilters rest e else .ok false)
      else if f.Condition = "neq" then
        (if !(checkEquals v f.Value) then applyFilters rest e else .ok false)
      else .error "invalid filter condition"
    | none => .ok false

/-- The group-by row-key builder: a missing column, a JSON `null`
(a nil interface in Go) or an unmarshalable value (NaN) drops the
event. -/
def buildRowKey (e : Event) : List String → Option RowKey
  | [] => some []
  | c :: rest =>
    match evGet e c with
    | none => none
    | some .vNull => none
    | some v =>
      if marshalableVal v then (buildRowKey e rest).map (fun parts => v :: parts)
      else none

/-- The numeric coercion of a column value: Go ints and float64 values
convert, everything else (including a missing column) contributes 0. -/
def coerceFloat : Option Value → Flt
  | some (.vInt n) => some (n : ℚ)
  | some (.vFloat f) => f
  | _ => some 0

/-- One aggregate update, NaN being the "no contribution yet"
sentinel; an unknown aggregate name leaves the slot unchanged. -/
def aggStep (aggregate : String) (cur v : Flt) : Flt :=
  if aggregate = "sum" then fltAdd (if fltIsNaN cur then some 0 else cur) v
  else if aggregate = "count" then fltAdd (if fltIsNaN cur then some 0 else cur) (some 1)
  else if aggregate = "min" then (if fltLt v cur || fltIsNaN cur then v else cur)
  else if aggregate = "max" then (if fltLt cur v || fltIsNaN cur then v else cur)
  else cur

/-- Update a whole aggregate vector for one event. -/
def updVec (event : Event) : List ColumnDesc → List Flt → List Flt
  | [], _ => []
  | _ :: _, [] => []
  | c :: cs, f :: fs =>
    aggStep c.Aggregate f (coerceFloat (evGet event c.Name)) :: updVec event cs fs

/-- A fresh aggregate vector: every slot NaN. -/
def initAggs (n : Nat) : List Flt := List.replicate n none

/-- Read an aggregate-map entry. -/
def alGet (rows : List (RowKey × List Flt)) (rk : RowKey) : Option (List Flt) :=
  (rows.find? (fun p => p.1 == rk)).map (·.2)

/-- Write an aggregate-map entry, keeping first-insertion order. -/
def alSet (rows : List (RowKey × List Flt)) (rk : RowKey) (v : List Flt) :
    List (RowKey × List Flt) :=
  if rows.any (fun p => p.1 == rk) then
    rows.map (fun p => if p.1 == rk then (rk, v) else p)
  else rows ++ [(rk, v)]

/-- The `updateRows` closure of `Query`. -/
def updateRows (cols : List ColumnDesc) (event : Event)
    (rows : List (RowKey × List Flt)) (rk : RowKey) : List (RowKey × List Flt) :=
  alSet rows rk (updVec event cols ((alGet rows rk).getD (initAggs cols.length)))

/-- The per-bucket aggregate maps (`summaryRowsByTime`). -/
def updateRowsByTime (cols : List ColumnDesc) (event : Event)
    (byTime : List (Int × List (RowKey × List Flt))) (tg : Int) (rk : RowKey) :
    List (Int × List (RowKey × List Flt)) :=
  if byTime.any (fun p => p.1 == tg) then
    byTime.map (fun p => if p.1 == tg then (tg, updateRows cols event p.2 rk) else p)
  else byTime ++ [(tg, updateRows cols event [] rk)]

/-- The accumulator of the cursor loop. -/
structure QAcc where
  summaryRows : List (RowKey × List Flt)
  summaryRowsByTime : List (Int × List (RowKey × List Flt))
  resultEvents : List Event

/-- The image of a stored value under plain `json.Unmarshal` into
`map[string]interface{}`: every JSON number becomes a float64. -/
def jsonNormalizeVal : Value → Value
  | .vInt n => .vFloat (some (n : ℚ))
  | .vInt64 n => .vFloat (some (n : ℚ))
  | .vNum q => .vFloat (some q)
  | v => v

/-- Unmarshal a stored event row. -/
def jsonDecodeEvent (e : Event) : Event :=
  e.map (fun p => (p.1, jsonNormalizeVal p.2))

/-- `strconv.FormatInt(ts, 10)`. -/
def intDecStr (n : Int) : String := bytesToStr (itoa n)

/-- Populate the derived fields `_ts`, `_tag`, `_hash` (when the key
hash is non-empty) and `_id` on a decoded event. -/
def decorateEvent (ts : Int) (keyTag hash : Bytes) (stored : Event) : Event :=
  let event := jsonDecodeEvent stored
  let event := evSet event "_ts" (.vInt64 ts)
  let event := evSet event "_tag" (.vStr (bytesToStr keyTag))
  let event := if 0 < hash.length then evSet event "_hash" (.vStr (bytesToStr hash)) else event
  let eventID := if 0 < hash.length then
      intDecStr ts ++ "-" ++ bytesToStr keyTag ++ "-" ++ bytesToStr hash
    else intDecStr ts ++ "-" ++ bytesToStr keyTag
  evSet event "_id" (.vStr eventID)

/-- Route a filtered event: the raw-events path when there is no
grouping, no columns and no point size; otherwise the aggregate maps. -/
def routeEvent (desc : QueryDesc) (ts : Int) (event : Event) (acc : QAcc) : QAcc :=
  if desc.GroupBy.length = 0 ∧ desc.Columns.length = 0 ∧ desc.PointSize ≤ 0 then
    { acc with resultEvents := acc.resultEvents ++ [evSet event "_ts" (.vTime ts)] }
  else
    match buildRowKey event desc.GroupBy with
    | none => acc
    | some rk =>
      let acc1 := if 0 < desc.Columns.length then
          { acc with summaryRows := updateRows desc.Columns event acc.summaryRows rk }
        else acc
      if 0 < desc.PointSize then
        { acc1 with summaryRowsByTime := (updateRowsByTime desc.Columns event
            acc1.summaryRowsByTime (Int.tdiv ts desc.PointSize) rk) }
      else acc1

/-- One iteration of the cursor loop: skip reserved `'_'` keys, decode
the key (a failure aborts the query), skip seek overshoot, unmarshal
(a version row is not JSON and fails), decorate, filter, route. -/
def processRow (desc : QueryDesc) (startTs : Int) (acc : QAcc)
    (row : Bytes × StoredVal) : Except String QAcc :=
  if row.1.head? = some 95 then .ok acc
  else
    match splitCollectionID row.1 with
    | .error e => .error e
    | .ok (ts, keyTag, hash) =>
      if ts < startTs then .ok acc
      else
        match row.2 with
        | .sStr _ => .error "invalid character"
        | .sJson stored =>
          match applyFilters desc.Filters (decorateEvent ts keyTag hash stored) with
          | .error e => .error e
          | .ok false => .ok acc
          | .ok true => .ok (routeEvent desc ts (decorateEvent ts keyTag hash stored) acc)

/-- The cursor loop over the scanned range. -/
def foldProcess (desc : QueryDesc) (startTs : Int) :
    QAcc → List (Bytes × StoredVal) → Except String QAcc
  | acc, [] => .ok acc
  | acc, r :: rs =>
    match processRow desc startTs acc r with
    | .error e => .error e
    | .ok acc' => foldProcess desc startTs acc' rs

/-- One step of Go's insertion sort: the new element moves left past
exactly the elements it is `less` than, scanning from the right. -/
def goStableInsert (less : α → α → Bool) (acc : List α) (x : α) : List α :=
  ((acc.reverse.dropWhile (fun y => less x y)).reverse) ++
    x :: (acc.reverse.takeWhile (fun y => less x y)).reverse

/-- Go's insertion sort, processing elements left to right.  This is
exactly `sort.Stable` for up to 20 elements (one insertion-sort block)
and produces the unique stable sorted order whenever `less` is a
strict weak order; `sort.Sort` (used for the series) may order ties
differently, which no claim observes. -/
def goStableSort (less : α → α → Bool) (l : List α) : List α :=
  l.foldl (goStableInsert less) []

/-- The emitted aggregate field name `aggregate(name)`. -/
def aggFieldName (c : ColumnDesc) : String :=
  c.Aggregate ++ "(" ++ c.Name ++ ")"

/-- Append the aggregate fields to a materialized event. -/
def addAggFields (cols : List ColumnDesc) (aggs : List Flt) (base : Event) : Event :=
  (cols.zip aggs).foldl (fun ev p => evSet ev (aggFieldName p.1) (.vFloat p.2)) base

/-- A group-by `_ts` part: `strconv.Atoi` on the part's JSON text.
Only `vInt64` can occur there (the derived `_ts` field); on any other
text `Atoi` fails and the ignored error leaves 0. -/
def materializeTsPart : Value → Value
  | .vInt64 n => .vTime n
  | _ => .vTime 0

/-- A group-by part under number-preserving (`UseNumber`) decoding of
its JSON text: numbers come back as `json.Number`. -/
def useNumberImage : Value → Value
  | .vInt n => .vNum (n : ℚ)
  | .vInt64 n => .vNum (n : ℚ)
  | .vFloat (some q) => .vNum q
  | v => v

/-- Materialize one summary event from a row key and its aggregates. -/
def buildSummaryEvent (desc : QueryDesc) (rk : RowKey) (aggs : List Flt) : Event :=
  addAggFields desc.Columns aggs
    ((desc.GroupBy.zip rk).foldl (fun ev p =>
      if p.1 = "_ts" then evSet ev "_ts" (materializeTsPart p.2)
      else evSet ev p.1 (useNumberImage p.2)) [])

/-- Materialize the summary list (map iteration modelled as
first-insertion order). -/
def buildSummary (desc : QueryDesc) (rows : List (RowKey × List Flt)) : List Event :=
  rows.map (fun p => buildSummaryEvent desc p.1 p.2)

/-- Materialize one series point: `_ts = bucket * point_size`, the
group-by fields except `_ts`, then the aggregates. -/
def buildSeriesEvent (desc : QueryDesc) (bucket : Int) (rk : RowKey)
    (aggs : List Flt) : Event :=
  addAggFields desc.Columns aggs
    ((desc.GroupBy.zip rk).foldl (fun ev p =>
      if p.1 = "_ts" then ev else evSet ev p.1 (useNumberImage p.2))
      [("_ts", .vTime (bucket * desc.PointSize))])

/-- Materialize all series points. -/
def buildSeries (desc : QueryDesc)
    (byTime : List (Int × List (RowKey × List Flt))) : List Event :=
  byTime.foldl (fun acc p =>
    acc ++ p.2.map (fun q => buildSeriesEvent desc p.1 q.1 q.2)) []

/-- `ByTimestamp.Less`: compare the `_ts` fields (always `vTime`). -/
def seriesLess (a b : Event) : Bool :=
  match evGet a "_ts", evGet b "_ts" with
  | some (.vTime x), some (.vTime y) => decide (x < y)
  | _, _ => false

/-- `OrderBy.Less`: scan the named columns, returning false as soon as
one compares `≥ 0` (a missing column reads as Go `nil`). -/
def orderByLess (cols : List String) (e1 e2 : Event) : Bool :=
  match cols with
  | [] => true
  | c :: rest =>
    if compareInterfaces ((evGet e1 c).getD .vNull) ((evGet e2 c).getD .vNull) ≥ 0
    then false
    else orderByLess rest e1 e2

/-- The sort comparator after `sort.Reverse` is applied for
descending queries (it swaps the comparator's arguments). -/
def effectiveLess (desc : QueryDesc) (a b : Event) : Bool :=
  if desc.Descending then orderByLess desc.OrderBy b a else orderByLess desc.OrderBy a b

/-- The open-ended default: both range ends at the epoch mean
`end = max_int64` microseconds. -/
def effectiveRange (tr : TimeRange) : TimeRange :=
  if tr.Start = minTimestamp ∧ tr.End = minTimestamp then
    ⟨tr.Start, fromMicrosecondTimeSpec (2 ^ 63 - 1)⟩
  else tr

/-- The seek key `'e' ‖ be8(start_us)`. -/
def startKeyOf (tr : TimeRange) : Bytes :=
  eventKeyPrefix :: formatTs (toMicrosecondTime tr.Start)

/-- The stop key `'e' ‖ be8(end_us) ‖ 0xFF`. -/
def endKeyOf (tr : TimeRange) : Bytes :=
  eventKeyPrefix :: formatTs (toMicrosecondTime tr.End) ++ [255]

/-- The keys the cursor visits: at least the seek key, at most the
stop key (the loop breaks at the first greater key). -/
def keyInRange (startKey endKey k : Bytes) : Bool :=
  !bytesLt k startKey && !bytesLt endKey k

/-- Cursor order: ascending bytewise key order. -/
def rowLt (a b : Bytes × StoredVal) : Bool := bytesLt a.1 b.1

/-- The rows the cursor loop visits, in visit order. -/
def scanRows (st : Store) (tr : TimeRange) : List (Bytes × StoredVal) :=
  goStableSort rowLt (st.filter (fun r => keyInRange (startKeyOf tr) (endKeyOf tr) r.1))

/-- The whole evaluator except the final `limit` truncation, which is
the only place the `Limit` field is read. -/
def queryCore (st : Store) (desc : QueryDesc) :
    Except String (List Event × List Event × List Event) :=
  match foldProcess desc (toMicrosecondTime (effectiveRange desc.TimeRange).Start)
      ⟨[], [], []⟩ (scanRows st (effectiveRange desc.TimeRange)) with
  | .error e => .error e
  | .ok acc =>
    .ok (
      (if desc.OrderBy.length ≠ 0 then
        goStableSort (effectiveLess desc) (buildSummary desc acc.summaryRows)
      else buildSummary desc acc.summaryRows),
      (if 0 < desc.PointSize then
        goStableSort seriesLess (buildSeries desc acc.summaryRowsByTime)
      else []),
      acc.resultEvents)

/-- `Query`: evaluate, then truncate the summary to `Limit` entries
when `Limit` is positive and exceeded, echoing the descriptor. -/
def Query (st : Store) (desc : QueryDesc) : Except String QueryResult :=
  match queryCore st desc with
  | .error e => .error e
  | .ok (summary, series, events) =>
    .ok ⟨if 0 < desc.Limit ∧ desc.Limit < (summary.length : Int) then
        summary.take desc.Limit.toNat else summary,
      series, events, desc⟩

theorem processRow_limit (C : List ColumnDesc) (TR : TimeRange) (G : List String)
    (F : List Filter) (P : Int) (O : List String) (D : Bool) (L1 L2 : Int) :
    processRow ⟨C, TR, G, F, P, O, D, L1⟩ = processRow ⟨C, TR, G, F, P, O, D, L2⟩ := rfl

theorem foldProcess_limit (C : List ColumnDesc) (TR : TimeRange) (G : List String)
    (F : List Filter) (P : Int) (O : List String) (D : Bool) (L1 L2 : Int)
    (s : Int) : ∀ (rows : List (Bytes × StoredVal)) (acc : QAcc),
    foldProcess ⟨C, TR, G, F, P, O, D, L1⟩ s acc rows =
      foldProcess ⟨C, TR, G, F, P, O, D, L2⟩ s acc rows := by
  intro rows
  induction rows with
  | nil => intro acc; rfl
  | cons r rs ih =>
    intro acc
    rw [foldProcess, foldProcess, processRow_limit C TR G F P O D L1 L2]
    cases processRow ⟨C, TR, G, F, P, O, D, L2⟩ s acc r with
    | error e => rfl
    | ok acc' => exact ih acc'

/-- `Limit` is read nowhere in the evaluator before the final
truncation. -/
theorem queryCore_limit (st : Store) (desc : QueryDesc) (L : Int) :
    queryCore st { desc with Limit := L } = queryCore st desc := by
  cases desc with
  | mk C TR G F P O D Lim =>
    show queryCore st ⟨C, TR, G, F, P, O, D, L⟩ = queryCore st ⟨C, TR, G, F, P, O, D, Lim⟩
    unfold queryCore
    rw [foldProcess_limit C TR G F P O D L Lim]
    rfl

/-- **C9.** The `limit` field truncates only the summary: the series
and raw-events lists of the result are identical under every value of
`limit`, and the summary is exactly the untruncated summary of the
evaluator cut to its first `limit` entries when `limit` is positive
and exceeded. -/
theorem c9_limit_frame (st : Store) (desc : QueryDesc) (L : Int) :
    ((Query st desc).map QueryResult.Series =
      (Query st { desc with Limit := L }).map QueryResult.Series) ∧
    ((Query st desc).map QueryResult.Events =
      (Query st { desc with Limit := L }).map QueryResult.Events) ∧
    (∀ r, Query st desc = .ok r →
      ∃ summary, queryCore st desc = .ok (summary, r.Series, r.Events) ∧
        r.Summary = (if 0 < desc.Limit ∧ desc.Limit < (summary.length : Int)
          then summary.take desc.Limit.toNat else summary)) := by
  have hlim := queryCore_limit st desc L
  refine ⟨?_, ?_, ?_⟩
  · cases hq : queryCore st desc with
    | error e => simp [Query, hlim, hq, Except.map]
    | ok val =>
      obtain ⟨s, se, ev⟩ := val
      simp [Query, hlim, hq, Except.map]
  · cases hq : queryCore st desc with
    | error e => simp [Query, hlim, hq, Except.map]
    | ok val =>
      obtain ⟨s, se, ev⟩ := val
      simp [Query, hlim, hq, Except.map]
  · intro r hr
    cases hq : queryCore st desc with
    | error e => rw [Query, hq] at hr; exact absurd hr (by simp)
    | ok val =>
      obtain ⟨s, se, ev⟩ := val
      rw [Query, hq] at hr
      have hr' : QueryResult.mk
          (if 0 < desc.Limit ∧ desc.Limit < (s.length : Int) then
            s.take desc.Limit.toNat else s) se ev desc = r := by
        simpa using hr
      refine ⟨s, ?_, ?_⟩
      · rw [← hr']
      · rw [← hr']

/-- Witness for C9: a positive limit smaller than nothing still leaves
the empty series and events of an empty collection intact. -/
theorem c9_limit_frame_witness :
    ∃ summary, queryCore ([] : Store)
        ⟨[], ⟨⟨0, 0⟩, ⟨0, 0⟩⟩, [], [], 0, [], false, 1⟩ =
        .ok (summary, [], []) ∧
      ([] : List Event) = (if 0 < (1 : Int) ∧ (1 : Int) < (summary.length : Int)
        then summary.take (1 : Int).toNat else summary) := by
  have h := (c9_limit_frame ([] : Store)
    ⟨[], ⟨⟨0, 0⟩, ⟨0, 0⟩⟩, [], [], 0, [], false, 1⟩ 0).2.2
    ⟨[], [], [], ⟨[], ⟨⟨0, 0⟩, ⟨0, 0⟩⟩, [], [], 0, [], false, 1⟩⟩ (by rfl)
  simpa using h

/-! ## Claim C7: filter semantics -/

theorem splitParts_error {ts : Int} {l : List Bytes} {m : String}
    (h : splitParts ts l = .error m) : m = "invalid ID" := by
  match l with
  | [] => simp [splitParts] at h; exact h.symm
  | [t] => simp [splitParts] at h; exact h.symm
  | [t, hh] => simp [splitParts] at h
  | t :: hh :: x :: xs => simp [splitParts] at h; exact h.symm

theorem splitCollectionID_error {k : Bytes} {m : String}
    (h : splitCollectionID k = .error m) :
    m = "invalid ID" ∨ m = "invalid ID prefix" := by
  match k with
  | [] => simp [splitCollectionID] at h; exact Or.inl h.symm
  | c :: rest =>
    rw [splitCollectionID] at h
    split_ifs at h with h1 h2
    · simp at h; exact Or.inr h.symm
    · simp at h; exact Or.inl h.symm
    · match hd : rest.drop 8 with
      | [] =>
        rw [hd, splitAfterTs] at h
        simp at h; exact Or.inl h.symm
      | d :: rest' =>
        rw [hd, splitAfterTs] at h
        by_cases hdd : d ≠ dashByte
        · rw [if_pos hdd] at h; simp at h; exact Or.inl h.symm
        · rw [if_neg hdd] at h
          exact Or.inl (splitParts_error h)

theorem applyFilters_missing (f : Filter) (rest : List Filter) (e : Event)
    (h : evGet e f.Column = none) : applyFilters (f :: rest) e = .ok false := by
  rw [applyFilters, h]

theorem applyFilters_eq (f : Filter) (rest : List Filter) (e : Event) (v : Value)
    (hv : evGet e f.Column = some v) (hc : f.Condition = "eq") :
    applyFilters (f :: rest) e =
      (if checkEquals v f.Value then applyFilters rest e else .ok false) := by
  rw [applyFilters, hv]
  simp [hc]

theorem applyFilters_neq (f : Filter) (rest : List Filter) (e : Event) (v : Value)
    (hv : evGet e f.Column = some v) (hc : f.Condition = "neq") :
    applyFilters (f :: rest) e =
      (if !(checkEquals v f.Value) then applyFilters rest e else .ok false) := by
  rw [applyFilters, hv]
  simp [hc]

theorem applyFilters_bad (f : Filter) (rest : List Filter) (e : Event) (v : Value)
    (hv : evGet e f.Column = some v) (hc1 : f.Condition ≠ "eq")
    (hc2 : f.Condition ≠ "neq") :
    applyFilters (f :: rest) e = .error "invalid filter condition" := by
  rw [applyFilters, hv]
  simp [hc1, hc2]

theorem checkEquals_iff (a b : Value) :
    checkEquals a b = true ↔ compareInterfaces a b = 0 := by
  simp [checkEquals]

theorem processRow_filter_behavior (desc : QueryDesc) (s : Int) (acc : QAcc)
    (k : Bytes) (stored : Event) (ts : Int) (keyTag hash : Bytes)
    (hhead : ¬(k.head? = some 95))
    (hsplit : splitCollectionID k = .ok (ts, keyTag, hash))
    (hts : ¬(ts < s)) :
    (applyFilters desc.Filters (decorateEvent ts keyTag hash stored) = .ok false →
      processRow desc s acc (k, .sJson stored) = .ok acc) ∧
    (∀ m, applyFilters desc.Filters (decorateEvent ts keyTag hash stored) = .error m →
      processRow desc s acc (k, .sJson stored) = .error m) := by
  constructor
  · intro hf
    rw [processRow]
    simp only [if_neg hhead, hsplit, if_neg hts, hf]
  · intro m hf
    rw [processRow]
    simp only [if_neg hhead, hsplit, if_neg hts, hf]

theorem foldProcess_error_propagates (desc : QueryDesc) (s : Int) :
    ∀ (pre : List (Bytes × StoredVal)) (row : Bytes × StoredVal)
      (post : List (Bytes × StoredVal)) (acc acc' : QAcc) (m : String),
      foldProcess desc s acc pre = .ok acc' →
      processRow desc s acc' row = .error m →
      foldProcess desc s acc (pre ++ row :: post) = .error m := by
  intro pre
  induction pre with
  | nil =>
    intro row post acc acc' m hpre hrow
    have : acc = acc' := by simpa [foldProcess] using hpre
    subst this
    rw [List.nil_append, foldProcess, hrow]
  | cons r rs ih =>
    intro row post acc acc' m hpre hrow
    cases hp : processRow desc s acc r with
    | error e =>
      rw [foldProcess, hp] at hpre
      simp at hpre
    | ok a1 =>
      rw [foldProcess, hp] at hpre
      rw [List.cons_append, foldProcess, hp]
      exact ih row post a1 acc' m hpre hrow

theorem applyFilters_wellformed (fs : List Filter) (e : Event)
    (h : ∀ f ∈ fs, f.Condition = "eq" ∨ f.Condition = "neq") :
    ∃ b, applyFilters fs e = .ok b := by
  induction fs with
  | nil => exact ⟨true, rfl⟩
  | cons f rest ih =>
    have hf := h f (List.mem_cons_self f rest)
    obtain ⟨b, hb⟩ := ih (fun g hg => h g (List.mem_cons_of_mem f hg))
    cases hv : evGet e f.Column with
    | none => exact ⟨false, applyFilters_missing f rest e hv⟩
    | some v =>
      rcases hf with hf | hf
      · rw [applyFilters_eq f rest e v hv hf]
        cases hce : checkEquals v f.Value with
        | true => exact ⟨b, by simp [hce, hb]⟩
        | false => exact ⟨false, by simp [hce]⟩
      · rw [applyFilters_neq f rest e v hv hf]
        cases hce : checkEquals v f.Value with
        | true => exact ⟨false, by simp [hce]⟩
        | false => exact ⟨b, by simp [hce, hb]⟩

theorem processRow_no_filter_error (desc : QueryDesc) (s : Int) (acc : QAcc)
    (row : Bytes × StoredVal)
    (h : ∀ f ∈ desc.Filters, f.Condition = "eq" ∨ f.Condition = "neq") :
    processRow desc s acc row ≠ .error "invalid filter condition" := by
  intro hc
  rw [processRow] at hc
  by_cases hh : row.1.head? = some 95
  · rw [if_pos hh] at hc; simp at hc
  · rw [if_neg hh] at hc
    cases hs : splitCollectionID row.1 with
    | error e =>
      rw [hs] at hc
      simp at hc
      rcases splitCollectionID_error hs with rfl | rfl <;> simp at hc
    | ok trip =>
      obtain ⟨ts, keyTag, hash⟩ := trip
      rw [hs] at hc
      have hc' : (if ts < s then Except.ok acc
          else match row.2 with
          | StoredVal.sStr _ => Except.error "invalid character"
          | StoredVal.sJson stored =>
            match applyFilters desc.Filters (decorateEvent ts keyTag hash stored) with
            | Except.error e => Except.error e
            | Except.ok false => Except.ok acc
            | Except.ok true =>
              Except.ok (routeEvent desc ts (decorateEvent ts keyTag hash stored) acc)) =
          Except.error "invalid filter condition" := hc
      by_cases hts : ts < s
      · rw [if_pos hts] at hc'; simp at hc'
      · rw [if_neg hts] at hc'
        cases hrv : row.2 with
        | sStr v => rw [hrv] at hc'; simp at hc'
        | sJson stored =>
          rw [hrv] at hc'
          obtain ⟨b, hb⟩ :=
            applyFilters_wellformed desc.Filters (decorateEvent ts keyTag hash stored) h
          have hc'' : (match applyFilters desc.Filters (decorateEvent ts keyTag hash stored) with
            | Except.error e => Except.error e
            | Except.ok false => Except.ok acc
            | Except.ok true =>
              Except.ok (routeEvent desc ts (decorateEvent ts keyTag hash stored) acc)) =
              Except.error "invalid filter condition" := hc'
          rw [hb] at hc''
          cases b <;> simp at hc''

theorem foldProcess_no_filter_error (desc : QueryDesc) (s : Int)
    (h : ∀ f ∈ desc.Filters, f.Condition = "eq" ∨ f.Condition = "neq") :
    ∀ (rows : List (Bytes × StoredVal)) (acc : QAcc),
      foldProcess desc s acc rows ≠ .error "invalid filter condition" := by
  intro rows
  induction rows with
  | nil => intro acc hc; simp [foldProcess] at hc
  | cons r rs ih =>
    intro acc hc
    cases hp : processRow desc s acc r with
    | error e =>
      rw [foldProcess, hp] at hc
      simp at hc
      exact processRow_no_filter_error desc s acc r h (by rw [hp, hc])
    | ok a1 =>
      rw [foldProcess, hp] at hc
      exact ih a1 hc

/-- **C7, counterexample.** A query whose single filter has condition
`"lt"` (neither `eq` nor `neq`) succeeds on an empty collection: the
condition is only examined per scanned event that carries the filter's
column, so the claim's "every query containing such a filter fails" is
false. -/
theorem c7_bad_condition_counterexample :
    Query ([] : Store)
      ⟨[], ⟨⟨0, 0⟩, ⟨0, 0⟩⟩, [], [⟨"x", "lt", Value.vInt 1⟩], 0, [], false, 0⟩ =
      .ok ⟨[], [], [],
        ⟨[], ⟨⟨0, 0⟩, ⟨0, 0⟩⟩, [], [⟨"x", "lt", Value.vInt 1⟩], 0, [], false, 0⟩⟩ ∧
    ¬(("lt" : String) = "eq" ∨ ("lt" : String) = "neq") := by
  exact ⟨rfl, by decide⟩

/-- **C7, amended.** Filters are applied per decoded event in
declaration order: an event lacking the filter's column is silently
dropped and the query continues; `eq` keeps the event iff
`compare(value, filter.value) = 0` and `neq` iff it is nonzero; a
filter with any other condition aborts the whole query with
`invalid-condition` at the first scanned event that reaches it with
the column present (the error propagates out of the cursor loop), and
a query in which no scanned event reaches such a filter succeeds
despite containing it — in particular `Query` can return
`invalid-condition` only when some filter's condition is neither `eq`
nor `neq`. -/
theorem c7_filter_semantics :
    (∀ (f : Filter) (rest : List Filter) (e : Event),
      evGet e f.Column = none → applyFilters (f :: rest) e = .ok false) ∧
    (∀ (f : Filter) (rest : List Filter) (e : Event) (v : Value),
      evGet e f.Column = some v → f.Condition = "eq" →
      applyFilters (f :: rest) e =
        (if checkEquals v f.Value then applyFilters rest e else .ok false)) ∧
    (∀ (f : Filter) (rest : List Filter) (e : Event) (v : Value),
      evGet e f.Column = some v → f.Condition = "neq" →
      applyFilters (f :: rest) e =
        (if !(checkEquals v f.Value) then applyFilters rest e else .ok false)) ∧
    (∀ (a b : Value), checkEquals a b = true ↔ compareInterfaces a b = 0) ∧
    (∀ (f : Filter) (rest : List Filter) (e : Event) (v : Value),
      evGet e f.Column = some v → f.Condition ≠ "eq" → f.Condition ≠ "neq" →
      applyFilters (f :: rest) e = .error "invalid filter condition") ∧
    (∀ (desc : QueryDesc) (s : Int) (acc : QAcc) (k : Bytes) (stored : Event)
      (ts : Int) (keyTag hash : Bytes),
      ¬(k.head? = some 95) → splitCollectionID k = .ok (ts, keyTag, hash) →
      ¬(ts < s) →
      (applyFilters desc.Filters (decorateEvent ts keyTag hash stored) = .ok false →
        processRow desc s acc (k, .sJson stored) = .ok acc) ∧
      (∀ m, applyFilters desc.Filters (decorateEvent ts keyTag hash stored) = .error m →
        processRow desc s acc (k, .sJson stored) = .error m)) ∧
    (∀ (desc : QueryDesc) (s : Int) (pre : List (Bytes × StoredVal))
      (row : Bytes × StoredVal) (post : List (Bytes × StoredVal))
      (acc acc' : QAcc) (m : String),
      foldProcess desc s acc pre = .ok acc' →
      processRow desc s acc' row = .error m →
      foldProcess desc s acc (pre ++ row :: post) = .error m) ∧
    (∀ (st : Store) (desc : QueryDesc),
      (∀ f ∈ desc.Filters, f.Condition = "eq" ∨ f.Condition = "neq") →
      Query st desc ≠ .error "invalid filter condition") := by
  refine ⟨applyFilters_missing, applyFilters_eq, applyFilters_neq, checkEquals_iff,
    applyFilters_bad,
    fun desc s acc k stored ts keyTag hash hh hs hts =>
      processRow_filter_behavior desc s acc k stored ts keyTag hash hh hs hts,
    foldProcess_error_propagates, ?_⟩
  intro st desc h hc
  rw [Query] at hc
  cases hq : queryCore st desc with
  | error e =>
    rw [hq] at hc
    simp at hc
    rw [queryCore] at hq
    cases hf : foldProcess desc
        (toMicrosecondTime (effectiveRange desc.TimeRange).Start)
        ⟨[], [], []⟩ (scanRows st (effectiveRange desc.TimeRange)) with
    | error e' =>
      rw [hf] at hq
      simp at hq
      exact foldProcess_no_filter_error desc _ h _ _ (by rw [hf, hq, hc])
    | ok acc =>
      rw [hf] at hq
      simp at hq
  | ok val =>
    obtain ⟨s, se, ev⟩ := val
    rw [hq] at hc
    simp at hc

/-- Witness for C7: the `eq` clause instantiated concretely — an `eq`
filter on an equal string keeps the event. -/
theorem c7_filter_semantics_witness :
    applyFilters [⟨"r", "eq", Value.vStr "us"⟩] [("r", Value.vStr "us")] = .ok true := by
  have h := c7_filter_semantics.2.1 ⟨"r", "eq", Value.vStr "us"⟩ []
    [("r", Value.vStr "us")] (Value.vStr "us") (by rfl) rfl
  rw [h]
  rfl

/-! ## Claim C6: aggregate semantics -/

theorem evGet_evSet_self (e : Event) (k : String) (v : Value) :
    evGet (evSet e k v) k = some v := by
  simp [evGet, evSet, List.find?]

theorem evGet_evSet_other (e : Event) (k k' : String) (v : Value) (h : k ≠ k') :
    evGet (evSet e k v) k' = evGet e k' := by
  show evGet ((k, v) :: evDel e k) k' = evGet e k'
  unfold evGet
  rw [List.find?_cons_of_neg (evDel e k) (by simpa using h)]
  exact evGet_evDel_ne e k k' h

theorem alGet_alSet_self (rows : List (RowKey × List Flt)) (rk : RowKey)
    (v : List Flt) : alGet (alSet rows rk v) rk = some v := by
  unfold alGet alSet
  by_cases h : rows.any (fun p => p.1 == rk)
  · rw [if_pos h]
    induction rows with
    | nil => simp at h
    | cons q qs ih =>
      by_cases hq : q.1 == rk
      · simp [List.find?, hq]
      · simp only [List.map_cons]
        rw [if_neg hq, List.find?_cons_of_neg
          (qs.map (fun p => if (p.1 == rk) = true then (rk, v) else p)) hq]
        apply ih
        rcases List.any_eq_true.mp h with ⟨p, hp, hpk⟩
        rcases List.mem_cons.mp hp with rfl | hp'
        · exact absurd hpk hq
        · exact List.any_eq_true.mpr ⟨p, hp', hpk⟩
  · rw [if_neg h, List.find?_append]
    have hnone : rows.find? (fun p => p.1 == rk) = none :=
      List.find?_eq_none.mpr (fun x hx hpx =>
        h (List.any_eq_true.mpr ⟨x, hx, hpx⟩))
    rw [hnone]
    simp [List.find?]

theorem addAggFields_untouched (cols : List ColumnDesc) :
    ∀ (aggs : List Flt) (base : Event) (name : String),
      (∀ c ∈ cols, aggFieldName c ≠ name) →
      evGet (addAggFields cols aggs base) name = evGet base name := by
  induction cols with
  | nil => intro aggs base name _; rfl
  | cons c cs ih =>
    intro aggs base name h
    cases aggs with
    | nil => rfl
    | cons a as =>
      show evGet (addAggFields cs as (evSet base (aggFieldName c) (.vFloat a))) name = _
      rw [ih as _ name (fun d hd => h d (List.mem_cons_of_mem c hd))]
      exact evGet_evSet_other _ _ _ _ (h c (List.mem_cons_self c cs))

theorem addAggFields_get (cols : List ColumnDesc) :
    ∀ (aggs : List Flt) (base : Event),
      (cols.map aggFieldName).Nodup →
      ∀ c a, (c, a) ∈ cols.zip aggs →
        evGet (addAggFields cols aggs base) (aggFieldName c) = some (.vFloat a) := by
  induction cols with
  | nil => intro aggs base _ c a hca; simp at hca
  | cons c0 cs ih =>
    intro aggs base hnodup c a hca
    cases aggs with
    | nil => simp at hca
    | cons a0 as =>
      rw [List.zip_cons_cons] at hca
      rw [List.map_cons, List.nodup_cons] at hnodup
      rcases List.mem_cons.mp hca with heq | hmem
      · injection heq with h1 h2
        subst h1; subst h2
        show evGet (addAggFields cs as (evSet base (aggFieldName c) (.vFloat a)))
          (aggFieldName c) = _
        rw [addAggFields_untouched cs as _ _ (fun d hd hne =>
          hnodup.1 (by rw [← hne]; exact List.mem_map_of_mem aggFieldName hd))]
        exact evGet_evSet_self _ _ _
      · exact ih as _ hnodup.2 c a hmem

/-- **C6.** Aggregate slots start as NaN; each contributing event's
column value is coerced (ints and float64 values converted, all other
kinds yielding 0) and folded in with the claimed `sum` / `count` /
`min` / `max` update rules, NaN acting as the "no contribution yet"
sentinel; the emitted summary field is named `aggregate(name)` and
holds the final slot value. -/
theorem c6_aggregate_semantics :
    (∀ (n : Nat) (x : Flt), x ∈ initAggs n → fltIsNaN x = true) ∧
    (∀ (cols : List ColumnDesc) (event : Event) (rows : List (RowKey × List Flt))
      (rk : RowKey),
      alGet rows rk = none →
      alGet (updateRows cols event rows rk) rk =
        some (updVec event cols (initAggs cols.length))) ∧
    (∀ (cols : List ColumnDesc) (event : Event) (rows : List (RowKey × List Flt))
      (rk : RowKey) (cur : List Flt),
      alGet rows rk = some cur →
      alGet (updateRows cols event rows rk) rk = some (updVec event cols cur)) ∧
    (∀ (event : Event) (c : ColumnDesc) (cs : List ColumnDesc) (f : Flt) (fs : List Flt),
      updVec event (c :: cs) (f :: fs) =
        aggStep c.Aggregate f (coerceFloat (evGet event c.Name)) :: updVec event cs fs) ∧
    (∀ q v : ℚ, aggStep "sum" (some q) (some v) = some (q + v)) ∧
    (∀ v : Flt, aggStep "sum" none v = fltAdd (some 0) v) ∧
    (∀ cur v : Flt, aggStep "count" cur v = some (cur.getD 0 + 1)) ∧
    (∀ v : Flt, aggStep "min" none v = v) ∧
    (∀ q v : ℚ, aggStep "min" (some q) (some v) = some (if v < q then v else q)) ∧
    (∀ v : Flt, aggStep "max" none v = v) ∧
    (∀ q v : ℚ, aggStep "max" (some q) (some v) = some (if q < v then v else q)) ∧
    (∀ n : Int, coerceFloat (some (.vInt n)) = some (n : ℚ)) ∧
    (∀ f : Flt, coerceFloat (some (.vFloat f)) = f) ∧
    (coerceFloat none = some 0 ∧ coerceFloat (some .vNull) = some 0) ∧
    ((∀ s, coerceFloat (some (.vStr s)) = some 0) ∧
     (∀ b, coerceFloat (some (.vBool b)) = some 0) ∧
     (∀ n, coerceFloat (some (.vInt64 n)) = some 0) ∧
     (∀ q, coerceFloat (some (.vNum q)) = some 0) ∧
     (∀ us, coerceFloat (some (.vTime us)) = some 0)) ∧
    (∀ (desc : QueryDesc) (rk : RowKey) (aggs : List Flt),
      (desc.Columns.map aggFieldName).Nodup →
      ∀ c a, (c, a) ∈ desc.Columns.zip aggs →
        evGet (buildSummaryEvent desc rk aggs) (aggFieldName c) = some (.vFloat a)) ∧
    (∀ c : ColumnDesc, aggFieldName c = c.Aggregate ++ "(" ++ c.Name ++ ")") := by
  refine ⟨?_, ?_, ?_, fun _ _ _ _ _ => rfl, fun q v => rfl, fun _ => rfl, ?_, ?_, ?_,
    ?_, ?_, fun _ => rfl, fun _ => rfl, ⟨rfl, rfl⟩,
    ⟨fun _ => rfl, fun _ => rfl, fun _ => rfl, fun _ => rfl, fun _ => rfl⟩, ?_,
    fun _ => rfl⟩
  · intro n x hx
    rw [initAggs] at hx
    rw [List.eq_of_mem_replicate hx]
    rfl
  · intro cols event rows rk h
    rw [updateRows, h]
    exact alGet_alSet_self _ _ _
  · intro cols event rows rk cur h
    rw [updateRows, h]
    exact alGet_alSet_self _ _ _
  · intro cur v
    cases cur <;> rfl
  · intro v
    cases v <;> rfl
  · intro q v
    show (if fltLt (some v) (some q) || fltIsNaN (some q) then some v else some q) = _
    by_cases h : v < q
    · rw [if_pos (by simp [fltLt, fltIsNaN, h]), if_pos h]
    · rw [if_neg (by simp [fltLt, fltIsNaN, h]), if_neg h]
  · intro v
    cases v <;> rfl
  · intro q v
    show (if fltLt (some q) (some v) || fltIsNaN (some q) then some v else some q) = _
    by_cases h : q < v
    · rw [if_pos (by simp [fltLt, fltIsNaN, h]), if_pos h]
    · rw [if_neg (by simp [fltLt, fltIsNaN, h]), if_neg h]
  · intro desc rk aggs hnodup c a hca
    exact addAggFields_get desc.Columns aggs _ hnodup c a hca

/-- Witness for C6: a first contribution to a fresh `sum` row turns
the NaN slot into the event's value. -/
theorem c6_aggregate_semantics_witness :
    alGet (updateRows [⟨"n", "sum"⟩] [("n", Value.vFloat (some 2))] [] []) [] =
      some (updVec [("n", Value.vFloat (some 2))] [⟨"n", "sum"⟩] (initAggs 1)) :=
  c6_aggregate_semantics.2.1 [⟨"n", "sum"⟩] [("n", Value.vFloat (some 2))] [] [] rfl

/-! ## Claim C5: ordering and limit -/

instance decEqExcept {e a : Type} [DecidableEq e] [DecidableEq a] :
    DecidableEq (Except e a) := fun x y =>
  match x, y with
  | .error p, .error q =>
    if h : p = q then isTrue (by rw [h]) else isFalse (fun hc => h (by injection hc))
  | .ok p, .ok q =>
    if h : p = q then isTrue (by rw [h]) else isFalse (fun hc => h (by injection hc))
  | .error _, .ok _ => isFalse (fun hc => Except.noConfusion hc)
  | .ok _, .error _ => isFalse (fun hc => Except.noConfusion hc)

/-- Modelled from the claim's words, for comparison with the code: one
sort column compared with missing values greater than everything. -/
def specColCompare (c : String) (e1 e2 : Event) : Int :=
  match evGet e1 c, evGet e2 c with
  | none, none => 0
  | none, some _ => 1
  | some _, none => -1
  | some a, some b => compareInterfaces a b

/-- Modelled from the claim's words: lexicographic comparison, the
first column compared first and each later column breaking ties. -/
def specLexCompare (cols : List String) (e1 e2 : Event) : Int :=
  match cols with
  | [] => 0
  | c :: rest =>
    if specColCompare c e1 e2 = 0 then specLexCompare rest e1 e2
    else specColCompare c e1 e2

/-- Modelled from the claim's words: the strict-less relation of the
claimed lexicographic ordering. -/
def specLexLess (cols : List String) (e1 e2 : Event) : Bool :=
  decide (specLexCompare cols e1 e2 < 0)

/-- Two single-event groups, the earlier event having the larger `g`. -/
def c5store : Store :=
  [(eventKey 1000000 (strBytes "t") [],
    .sJson [("g", .vFloat (some 2)), ("n", .vFloat (some 3))]),
   (eventKey 2000000 (strBytes "t") [],
    .sJson [("g", .vFloat (some 1)), ("n", .vFloat (some 5))])]

/-- Group by `g`, aggregate `min(n)`, order by `g` then `min(n)`. -/
def c5desc : QueryDesc :=
  ⟨[⟨"n", "min"⟩], ⟨⟨0, 0⟩, ⟨0, 0⟩⟩, ["g"], [], 0, ["g", "min(n)"], false, 0⟩

/-- The summary row of the `g = 2` group. -/
def c5evB : Event := [("min(n)", .vFloat (some 3)), ("g", .vNum 2)]

/-- The summary row of the `g = 1` group. -/
def c5evA : Event := [("min(n)", .vFloat (some 5)), ("g", .vNum 1)]

/-- **C5, counterexample.** Ordering by `["g", "min(n)"]`, the summary
comes back as `[g=2, g=1]` — the group with the smaller first sort
column LAST.  Under the claimed lexicographic ordering (first column
first, later columns breaking ties) the sorted summary would be
`[g=1, g=2]`, as sorting the materialized rows with the claim's own
comparator shows: `OrderBy.Less` demands `compare < 0` on *every*
column simultaneously, and `min(n)` compares `≥ 0` here, so no
reordering happens. -/
theorem c5_order_by_counterexample :
    Query c5store c5desc = .ok ⟨[c5evB, c5evA], [], [], c5desc⟩ ∧
    goStableSort (specLexLess ["g", "min(n)"]) [c5evB, c5evA] = [c5evA, c5evB] ∧
    [c5evB, c5evA] ≠ [c5evA, c5evB] := by
  refine ⟨by decide, by decide, by decide⟩

theorem orderByLess_all (cols : List String) (e1 e2 : Event) :
    orderByLess cols e1 e2 = cols.all (fun c =>
      decide (compareInterfaces ((evGet e1 c).getD .vNull)
        ((evGet e2 c).getD .vNull) < 0)) := by
  induction cols with
  | nil => rfl
  | cons c rest ih =>
    rw [orderByLess]
    by_cases h : compareInterfaces ((evGet e1 c).getD .vNull) ((evGet e2 c).getD .vNull) ≥ 0
    · rw [if_pos h]
      have : ¬(compareInterfaces ((evGet e1 c).getD .vNull) ((evGet e2 c).getD .vNull) < 0) := by
        omega
      simp [this]
    · rw [if_neg h, ih]
      have : compareInterfaces ((evGet e1 c).getD .vNull) ((evGet e2 c).getD .vNull) < 0 := by
        omega
      simp [this]

theorem goStableInsert_perm {α : Type} (less : α → α → Bool) (acc : List α) (x : α) :
    (goStableInsert less acc x).Perm (x :: acc) := by
  unfold goStableInsert
  have h : (acc.reverse.dropWhile (fun y => less x y)).reverse ++
      (acc.reverse.takeWhile (fun y => less x y)).reverse = acc := by
    rw [← List.reverse_append, List.takeWhile_append_dropWhile, List.reverse_reverse]
  exact List.perm_middle.trans (by rw [h])

theorem goStableSort_perm_aux {α : Type} (less : α → α → Bool) :
    ∀ (l acc : List α), (l.foldl (goStableInsert less) acc).Perm (acc ++ l) := by
  intro l
  induction l with
  | nil => intro acc; simp
  | cons x xs ih =>
    intro acc
    have h1 : (x :: xs).foldl (goStableInsert less) acc =
      xs.foldl (goStableInsert less) (goStableInsert less acc x) := rfl
    rw [h1]
    have h2 := ih (goStableInsert less acc x)
    have h3 : (goStableInsert less acc x ++ xs).Perm ((x :: acc) ++ xs) :=
      (goStableInsert_perm less acc x).append_right xs
    have h4 : ((x :: acc) ++ xs).Perm (acc ++ x :: xs) := by
      show (x :: (acc ++ xs)).Perm (acc ++ x :: xs)
      exact List.perm_middle.symm
    exact h2.trans (h3.trans h4)

theorem goStableSort_perm {α : Type} (less : α → α → Bool) (l : List α) :
    (goStableSort less l).Perm l := by
  simpa using goStableSort_perm_aux less l []

/-- **C5, amended.** With non-empty `order_by` the summary is permuted
by Go's stable sort under `OrderBy.Less`, which deems one event less
than another iff `compare` is **strictly negative on every named
column simultaneously** — the columns are a conjunction, not a
lexicographic chain with tie-breaking, and a missing column reads as
Go `nil` (comparing `-1` from either side rather than "greater than
everything"); `descending` swaps the comparator's arguments
(`sort.Reverse`); afterwards, if `limit` is positive and the summary
longer, the summary is truncated to its first `limit` entries. -/
theorem c5_order_and_limit :
    (∀ (cols : List String) (e1 e2 : Event),
      orderByLess cols e1 e2 = cols.all (fun c =>
        decide (compareInterfaces ((evGet e1 c).getD .vNull)
          ((evGet e2 c).getD .vNull) < 0))) ∧
    (∀ (desc : QueryDesc) (a b : Event), desc.Descending = true →
      effectiveLess desc a b = orderByLess desc.OrderBy b a) ∧
    (∀ (desc : QueryDesc) (a b : Event), desc.Descending = false →
      effectiveLess desc a b = orderByLess desc.OrderBy a b) ∧
    (∀ (less : Event → Event → Bool) (l : List Event),
      (goStableSort less l).Perm l) ∧
    (∀ (st : Store) (desc : QueryDesc) (s se ev : List Event),
      queryCore st desc = .ok (s, se, ev) →
      Query st desc = .ok ⟨if 0 < desc.Limit ∧ desc.Limit < (s.length : Int)
        then s.take desc.Limit.toNat else s, se, ev, desc⟩) ∧
    (∀ (st : Store) (desc : QueryDesc) (s se ev : List Event),
      queryCore st desc = .ok (s, se, ev) → desc.OrderBy ≠ [] →
      ∃ raw, s = goStableSort (effectiveLess desc) raw) := by
  refine ⟨orderByLess_all, ?_, ?_, fun less l => goStableSort_perm less l, ?_, ?_⟩
  · intro desc a b h
    simp [effectiveLess, h]
  · intro desc a b h
    simp [effectiveLess, h]
  · intro st desc s se ev h
    rw [Query, h]
  · intro st desc s se ev h hne
    rw [queryCore] at h
    cases hf : foldProcess desc
        (toMicrosecondTime (effectiveRange desc.TimeRange).Start)
        ⟨[], [], []⟩ (scanRows st (effectiveRange desc.TimeRange)) with
    | error e => rw [hf] at h; simp at h
    | ok acc =>
      rw [hf] at h
      have h' : Except.ok (
          (if desc.OrderBy.length ≠ 0 then
            goStableSort (effectiveLess desc) (buildSummary desc acc.summaryRows)
          else buildSummary desc acc.summaryRows),
          (if 0 < desc.PointSize then
            goStableSort seriesLess (buildSeries desc acc.summaryRowsByTime)
          else []),
          acc.resultEvents) = Except.ok (s, se, ev) := h
      have hs : (if desc.OrderBy.length ≠ 0 then
          goStableSort (effectiveLess desc) (buildSummary desc acc.summaryRows)
        else buildSummary desc acc.summaryRows) = s := by
        have := congrArg (fun x => match x with
          | Except.ok (a, _, _) => a
          | Except.error _ => []) h'
        simpa using this
      rw [if_pos (by simpa using hne)] at hs
      exact ⟨buildSummary desc acc.summaryRows, hs.symm⟩

/-- Witness for C5: the truncation clause instantiated on an empty
collection with `order_by = ["x"]` and `limit = 5`. -/
theorem c5_order_and_limit_witness :
    Query ([] : Store) ⟨[], ⟨⟨0, 0⟩, ⟨0, 0⟩⟩, [], [], 0, ["x"], false, 5⟩ =
      .ok ⟨if 0 < (5 : Int) ∧ (5 : Int) < (([] : List Event).length : Int)
        then ([] : List Event).take (5 : Int).toNat else [], [], [],
        ⟨[], ⟨⟨0, 0⟩, ⟨0, 0⟩⟩, [], [], 0, ["x"], false, 5⟩⟩ :=
  c5_order_and_limit.2.2.2.2.1 [] ⟨[], ⟨⟨0, 0⟩, ⟨0, 0⟩⟩, [], [], 0, ["x"], false, 5⟩
    [] [] [] (by decide)

/-! ## Claim C10: unvalidated hashes poison queries -/

/-- An event whose `_hash` contains the `'-'` separator. -/
def c10ev : Event := [("_ts", .vStr "1970-01-01T00:00:01Z"), ("_hash", .vStr "a-b")]

/-- The ingest request carrying it. -/
def c10req : CreateEventsRequest := ⟨"t", 0, [c10ev]⟩

/-- The stored key: the hash's `'-'` makes it split into three fields. -/
def c10badKey : Bytes := eventKey 1000000 (strBytes "t") (strBytes "a-b")

/-- The collection after the ingest. -/
def c10store : Store := [(versionKey "t", .sStr (itoa 1)), (c10badKey, .sJson c10ev)]

theorem bytesLt_e_v {x y : Bytes} :
    bytesLt (eventKeyPrefix :: x) (versionKeyPrefix :: y) = true := by
  simp [bytesLt, eventKeyPrefix, versionKeyPrefix]

/-- **C10.** `StoreEvents` never validates `_hash`: any string-typed
`_hash` is used verbatim in the event key (clause one, for every store
and tag); the concrete request with `_hash = "a-b"` is accepted and
stores a key that `splitCollectionID` rejects (clauses two and three),
so every query whose key range covers that key fails with
`invalid ID` instead of returning results (clause four). -/
theorem c10_hash_poisons_queries :
    (∀ (st : Store) (tag : String) (e : Event) (t : TimeSpec) (s : String) (k : Int),
      validTagStr tag = true →
      marshalOk (evDel e "_id") = true →
      eventTs (evDel e "_id") = .ok t →
      evGet e "_hash" = some (.vStr s) →
      (Version st tag = .ok k ∨ Version st tag = .error errNotFound) →
      ∃ st' v, StoreEvents st ⟨tag, 0, [e]⟩ = .ok (st', v) ∧
        storeGet st' (eventKey (toMicrosecondTime t) (strBytes tag) (strBytes s)) =
          some (.sJson (evDel e "_id"))) ∧
    (StoreEvents ([] : Store) c10req = .ok (c10store, 1)) ∧
    (splitCollectionID c10badKey = .error "invalid ID") ∧
    (∀ desc : QueryDesc,
      keyInRange (startKeyOf (effectiveRange desc.TimeRange))
        (endKeyOf (effectiveRange desc.TimeRange)) c10badKey = true →
      Query c10store desc = .error "invalid ID") := by
  refine ⟨?_, by decide, by decide, ?_⟩
  · intro st tag e t s k htag hm ht hs hver
    have hHash : eventHash (evDel e "_id") = strBytes s := by
      rw [eventHash, evGet_evDel_ne e "_id" "_hash" (by decide), hs]
    have hbatch : buildWriteBatch tag [e] = .ok
        [(eventKey (toMicrosecondTime t) (strBytes tag) (strBytes s),
          .sJson (evDel e "_id"))] := by
      rw [buildWriteBatch, if_pos hm, ht, hHash]
      rfl
    obtain ⟨k0, hread⟩ : ∃ k0, readVersion0 st tag = .ok k0 := by
      rcases hver with h | h
      · exact ⟨k, by rw [readVersion0, h]⟩
      · exact ⟨0, by rw [readVersion0, h]; simp [errNotFound]⟩
    have hkne : versionKey tag ≠
        eventKey (toMicrosecondTime t) (strBytes tag) (strBytes s) := by
      intro hEq
      have h1 := congrArg List.head? hEq
      rw [versionKey_head] at h1
      have h2 : (eventKey (toMicrosecondTime t) (strBytes tag) (strBytes s)).head? =
        some eventKeyPrefix := rfl
      rw [h2] at h1
      exact absurd h1 (by decide)
    refine ⟨applyBatch st
        ([(eventKey (toMicrosecondTime t) (strBytes tag) (strBytes s),
          .sJson (evDel e "_id"))] ++
         [(versionKey tag, .sStr (itoa (wrap64 (k0 + 1))))]),
      wrap64 (k0 + 1), ?_, ?_⟩
    · rw [StoreEvents, if_pos htag, hbatch, hread]
    · show storeGet (storeSet (storeSet st
        (eventKey (toMicrosecondTime t) (strBytes tag) (strBytes s))
        (.sJson (evDel e "_id")))
        (versionKey tag) (.sStr (itoa (wrap64 (k0 + 1))))) _ = _
      rw [storeGet_storeSet_other _ _ _ _ hkne]
      exact storeGet_storeSet_self _ _ _
  · intro desc hcov
    have hv : keyInRange (startKeyOf (effectiveRange desc.TimeRange))
        (endKeyOf (effectiveRange desc.TimeRange)) (versionKey "t") = false := by
      rw [keyInRange]
      have hev : bytesLt (endKeyOf (effectiveRange desc.TimeRange))
          (versionKey "t") = true := bytesLt_e_v
      rw [hev]
      simp
    have hscan : scanRows c10store (effectiveRange desc.TimeRange) = [(c10badKey, .sJson c10ev)] := by
      rw [scanRows]
      show goStableSort rowLt (List.filter _
        [(versionKey "t", .sStr (itoa 1)), (c10badKey, .sJson c10ev)]) = _
      rw [List.filter_cons_of_neg (by simpa using hv),
        List.filter_cons_of_pos (by simpa using hcov), List.filter_nil]
      rfl
    have hpr : processRow desc
        (toMicrosecondTime (effectiveRange desc.TimeRange).Start)
        ⟨[], [], []⟩ (c10badKey, .sJson c10ev) = .error "invalid ID" := by
      rw [processRow]
      rw [if_neg (by decide), show splitCollectionID c10badKey =
        Except.error "invalid ID" from by decide]
    have hfold : foldProcess desc
        (toMicrosecondTime (effectiveRange desc.TimeRange).Start)
        ⟨[], [], []⟩ [(c10badKey, .sJson c10ev)] = .error "invalid ID" := by
      rw [foldProcess, hpr]
    have hcore : queryCore c10store desc = .error "invalid ID" := by
      rw [queryCore, hscan, hfold]
    rw [Query, hcore]

/-- Witness for C10: the general hash-verbatim clause instantiated on
the concrete request (hash `"a-b"`, empty collection). -/
theorem c10_hash_poisons_queries_witness :
    ∃ st' v, StoreEvents ([] : Store) ⟨"t", 0, [c10ev]⟩ = .ok (st', v) ∧
      storeGet st' (eventKey (toMicrosecondTime ⟨1, 0⟩) (strBytes "t")
        (strBytes "a-b")) = some (.sJson (evDel c10ev "_id")) :=
  c10_hash_poisons_queries.1 [] "t" c10ev ⟨1, 0⟩ "a-b" 0
    (by decide) (by decide) (by decide) (by decide) (Or.inr (by decide))

end Eventstore
